import Mathlib

/-!
Shallow embedding of the `deno-generic-cli` command registry and dispatch
pipeline (sources: `src/cli/mod.ts`, `src/cli/helpers.ts`, `src/utils/levenshtein.ts`,
`src/utils/suggest.ts`, `src/utils/help.ts`, `src/context.ts`, `src/types.ts`).

Modelling conventions:
* JS `Map<string, T>` becomes an association list with unique keys kept in
  insertion order; `Map.set` updates in place (keeping the key's position) or
  appends.
* Handlers, middleware hooks and Zod schemas are opaque callables; they are
  modelled by numeric identifiers whose behaviour (return vs. throw) is given
  by an environment (`World`).
* `Deno.exit(code)` terminates the process immediately: control never returns,
  so `finally` blocks after it do not run.  It is modelled as the terminal
  outcome `RunRes.exited`.
* Console output, span operations, middleware and handler invocations are
  recorded as an event trace.
* Terminal colouring (`@std/fmt/colors`) is an external collaborator and is
  modelled as the identity on strings.
-/

namespace GenericCli

/-- JS `Map.get` on an insertion-ordered association list. -/
def mapGet {α : Type} (m : List (String × α)) (k : String) : Option α :=
  match m with
  | [] => none
  | (k', v) :: rest => if k' = k then some v else mapGet rest k

/-- JS `Map.set`: update an existing key in place (keeping its position) or
append a new binding at the end. -/
def mapSet {α : Type} (m : List (String × α)) (k : String) (v : α) :
    List (String × α) :=
  match m with
  | [] => [(k, v)]
  | (k', v') :: rest =>
    if k' = k then (k', v) :: rest else (k', v') :: mapSet rest k v

/-- `Array.prototype.join(" ")`. -/
def joinSpace (l : List String) : String := String.intercalate " " l

/-- `LazyImport` from `src/types.ts`: `{ path, symbol }`. -/
structure LazyImport where
  path : String
  symbol : String
deriving DecidableEq, Repr

/-- `CommandOptions` from `src/types.ts`.  The Zod `flagsSchema` is an opaque
callable, modelled by an identifier. -/
structure CommandOptions where
  description : Option String := none
  examples : List String := []
  aliases : List String := []
  hidden : Bool := false
  flagsSchema : Option Nat := none
deriving DecidableEq, Repr

/-- `CommandNode` from `src/types.ts`: children map, optional handler
(opaque callable, modelled by an identifier), optional pending lazy import,
and registration options. -/
inductive CommandNode where
  | mk (children : List (String × CommandNode)) (handler : Option Nat)
       (lazyImport : Option LazyImport) (options : CommandOptions)

def CommandNode.children : CommandNode → List (String × CommandNode)
  | .mk c _ _ _ => c

def CommandNode.handler : CommandNode → Option Nat
  | .mk _ h _ _ => h

def CommandNode.lazyImport : CommandNode → Option LazyImport
  | .mk _ _ li _ => li

def CommandNode.options : CommandNode → CommandOptions
  | .mk _ _ _ o => o

def CommandNode.withChildren : CommandNode → List (String × CommandNode) → CommandNode
  | .mk _ h li o, cs => .mk cs h li o

/-- A freshly created node: `{ children: new Map(), options: {} }`. -/
def emptyNode : CommandNode := .mk [] none none {}

/-- Walk (creating missing intermediate nodes, as the registration loop in
`CommandRegistry.registerCommand` does) down `path` and transform the terminal
node with `k`; the updated tree is rebuilt on the way out. -/
def insertAt (k : CommandNode → Except String CommandNode) :
    CommandNode → List String → Except String CommandNode
  | node, [] => k node
  | node, seg :: rest =>
    let child := (mapGet node.children seg).getD emptyNode
    match insertAt k child rest with
    | .ok child' => .ok (node.withChildren (mapSet node.children seg child'))
    | .error e => .error e

/-- Walk an existing path (`parent.children.get(path[i])!` in the source) and
set the child `al` of the reached node; if an intermediate node is missing the
tree is returned unchanged (the source would crash there, but registration has
just created the path, so this is unreachable). -/
def setChildAt : CommandNode → List String → String → CommandNode → CommandNode
  | node, [], al, anode => node.withChildren (mapSet node.children al anode)
  | node, seg :: rest, al, anode =>
    match mapGet node.children seg with
    | some child =>
      node.withChildren (mapSet node.children seg (setChildAt child rest al anode))
    | none => node

/-- The duplicate check and handler assignment at the terminal node of
`CommandRegistry.registerCommand`. -/
def setHandlerK (handler : Nat) (options : CommandOptions) (pathStr : String)
    (node : CommandNode) : Except String CommandNode :=
  if node.handler.isSome ∨ node.lazyImport.isSome then
    .error ("Command already registered: " ++ pathStr)
  else
    .ok (.mk node.children (some handler) node.lazyImport options)

/-- The terminal-node step of `CommandRegistry.registerLazyCommand`. -/
def setLazyK (li : LazyImport) (options : CommandOptions) (pathStr : String)
    (node : CommandNode) : Except String CommandNode :=
  if node.handler.isSome ∨ node.lazyImport.isSome then
    .error ("Command already registered: " ++ pathStr)
  else
    .ok (.mk node.children node.handler (some li) options)

/-- `CommandRegistry.registerCommand` (`src/cli/mod.ts`, registry part).
An alias is registered as a sibling node at the same parent level with the
same handler reference and a copy of the options with `hidden` forced. -/
def registerCommand (root : CommandNode) (path : List String) (handler : Nat)
    (options : CommandOptions) : Except String CommandNode :=
  if path = [] then
    .error "registerCommand() requires at least one path segment"
  else
    match insertAt (setHandlerK handler options (joinSpace path)) root path with
    | .error e => .error e
    | .ok root' =>
      .ok (options.aliases.foldl
        (fun r al =>
          setChildAt r path.dropLast al
            (.mk [] (some handler) none { options with hidden := true }))
        root')

/-- `CommandRegistry.registerLazyCommand`. -/
def registerLazyCommand (root : CommandNode) (path : List String)
    (modPath : String) (symbol : String) (options : CommandOptions) :
    Except String CommandNode :=
  if path = [] then
    .error "registerLazyCommand() requires at least one path segment"
  else
    match insertAt (setLazyK ⟨modPath, symbol⟩ options (joinSpace path)) root path with
    | .error e => .error e
    | .ok root' =>
      .ok (options.aliases.foldl
        (fun r al =>
          setChildAt r path.dropLast al
            (.mk [] none (some ⟨modPath, symbol⟩) { options with hidden := true }))
        root')

/-- `CommandRegistry.traverse`: greedy longest-prefix walk returning the
deepest node reached and the number of consumed segments. -/
def traverse (root : CommandNode) (path : List String) : CommandNode × Nat :=
  match path with
  | [] => (root, 0)
  | seg :: rest =>
    match mapGet root.children seg with
    | none => (root, 0)
    | some child =>
      let r := traverse child rest
      (r.1, r.2 + 1)

/-- Node reached by following exactly the given segments (specification-side
helper used to state properties of `traverse` and registration). -/
def nodeAt : CommandNode → List String → Option CommandNode
  | node, [] => some node
  | node, seg :: rest =>
    match mapGet node.children seg with
    | none => none
    | some child => nodeAt child rest

/-! ### Edit distance (`src/utils/levenshtein.ts`)

The source computes the classic two-row dynamic program over the two strings
(after an early-out for equal / empty inputs and a swap making the first
string the shorter one).  JS strings are sequences of UTF-16 code units
compared with `charCodeAt`; they are modelled as `List Char` with character
equality. -/

/-- The inner `for (let i = 1; i <= a.length; i++)` loop of `levenshtein`:
given the remaining characters of `a`, the corresponding tail of the previous
row, the diagonal value `prev[i-1]` and the value `curr[i-1]` just computed to
the left, produce the rest of the current row. -/
def rowStep (bj : Char) : List Char → List Nat → Nat → Nat → List Nat
  | [], _, _, _ => []
  | _ :: _, [], _, _ => []
  | ai :: arest, pi :: prest, diag, left =>
    let cost := if ai = bj then 0 else 1
    let c := min (left + 1) (min (pi + 1) (diag + cost))
    c :: rowStep bj arest prest pi c

/-- One iteration of the outer `for (let j = 1; j <= b.length; j++)` loop:
compute the full current row (`curr[0] = j`, then the inner loop). -/
def nextRow (a : List Char) (prev : List Nat) (bj : Char) : List Nat :=
  match prev with
  | [] => []
  | p0 :: ptail => (p0 + 1) :: rowStep bj a ptail p0 (p0 + 1)

/-- The outer loop of `levenshtein`, returning `prev[a.length]` at the end. -/
def levLoop (a : List Char) : List Nat → List Char → Nat
  | prev, [] => prev.getLastD 0
  | prev, bj :: brest => levLoop a (nextRow a prev bj) brest

/-- `levenshtein` from `src/utils/levenshtein.ts` on character lists: the
early returns, the swap putting the shorter string first, and the rolling-row
dynamic program starting from `prev = [0, 1, ..., a.length]`. -/
def levenshteinL (a b : List Char) : Nat :=
  if a = b then 0
  else if a.length = 0 then b.length
  else if b.length = 0 then a.length
  else if a.length > b.length then levLoop b (List.range (b.length + 1)) a
  else levLoop a (List.range (a.length + 1)) b

/-- `levenshtein(a, b)` on strings. -/
def levenshtein (a b : String) : Nat := levenshteinL a.data b.data

/-- The classic unit-cost edit distance (single-character insertion, deletion,
substitution), written as the textbook recursion.  This is the
specification-side definition the claim compares the source implementation
against. -/
def levClassic : List Char → List Char → Nat
  | [], ys => ys.length
  | x :: xs, [] => (x :: xs).length
  | x :: xs, y :: ys =>
    min (levClassic xs (y :: ys) + 1)
      (min (levClassic (x :: xs) ys + 1)
        (levClassic xs ys + (if x = y then 0 else 1)))
termination_by a b => a.length + b.length
decreasing_by all_goals simp_arith

/-! ### Suggestion engine (`src/utils/suggest.ts`) -/

/-- A node is "registered" iff it carries a handler or a pending import
(`child.handler || child.lazyImport` in the source). -/
def isRegistered (n : CommandNode) : Bool :=
  n.handler.isSome || n.lazyImport.isSome

/-- The `dfs` of `suggestFullPath`: enumerate, in child insertion order and
parent before descendants, every full path ending at a registered node
(hidden nodes included). -/
def allPathsAux : List (String × CommandNode) → List String → List (List String)
  | [], _ => []
  | (seg, CommandNode.mk cs h li o) :: rest, pre =>
    let p := pre ++ [seg]
    (if isRegistered (.mk cs h li o) then [p] else []) ++
      (allPathsAux cs p ++ allPathsAux rest pre)

def allPaths (root : CommandNode) : List (List String) :=
  allPathsAux root.children []

/-- `rawDist / Math.max(want.length, candString.length)`: the normalized edit
distance, with exact rational division modelling JS real division. -/
def normDist (want cand : String) : ℚ :=
  (levenshtein want cand : ℚ) / (max want.length cand.length : ℚ)

/-- The candidate loop of `suggestFullPath`, carrying `best` and
`bestNormalizedDistance` (`none` stands for `best = null`,
`bestNormalizedDistance = Infinity`).  When both strings are empty the JS
division yields `NaN`, for which `NaN < bestNormalizedDistance` is false, so
no update happens. -/
def suggestLoop (want : String) :
    List (List String) → Option (List String × ℚ) → Option (List String × ℚ)
  | [], acc => acc
  | cand :: rest, acc =>
    let candString := joinSpace cand
    if max want.length candString.length = 0 then suggestLoop want rest acc
    else
      let nd : ℚ := normDist want candString
      match acc with
      | none => suggestLoop want rest (some (cand, nd))
      | some (b, bd) =>
        if nd < bd then suggestLoop want rest (some (cand, nd))
        else suggestLoop want rest (some (b, bd))

/-- `suggestFullPath` from `src/utils/suggest.ts`. -/
def suggestFullPath (root : CommandNode) (targetParts : List String) :
    Option String :=
  let all := allPaths root
  if all = [] then none
  else
    let want := joinSpace targetParts
    match suggestLoop want all none with
    | some (b, bd) => if bd < 3 / 10 then some (joinSpace b) else none
    | none => none

/-! ### Help renderer (`src/utils/help.ts`)

`localeCompare` ordering is modelled as Lean's code-point string order; the
sort only fixes the enumeration order of sibling segments (which are unique
keys, so no comparator ties arise). -/

/-- `bold` / `red` / `cyan` from `@std/fmt/colors` are external text styling;
modelled as the identity. -/
def bold (s : String) : String := s

def red (s : String) : String := s

def cyan (s : String) : String := s

structure Row where
  path : String
  desc : String
  group : String
deriving DecidableEq, Repr

/-- Insert into a list sorted by the key projection (stable). -/
def insertByKey {α : Type} (key : α → String) (a : α) : List α → List α
  | [] => [a]
  | b :: rest =>
    if key a ≤ key b then a :: b :: rest else b :: insertByKey key a rest

/-- Stable insertion sort by a string key, modelling
`[...entries].sort(([a],[b]) => a.localeCompare(b))`. -/
def sortByKey {α : Type} (key : α → String) : List α → List α
  | [] => []
  | a :: rest => insertByKey key a (sortByKey key rest)

def padSpaces (n : Nat) : String := String.mk (List.replicate n ' ')

/-- The `dfs` of `formatHelpLines`: children visited in sorted order, hidden
children skipped (together with their subtrees).  `nodeDesc` is the current
(parent) node's `options.description`, used as fallback description. -/
def helpRowsAux (children : List (String × CommandNode)) (pre : List String)
    (nodeDesc : Option String) : List Row :=
  (sortByKey (fun x => x.1.1) children.attach).flatMap
    (fun x =>
      match x with
      | ⟨(seg, child), hmem⟩ =>
        if child.options.hidden then []
        else
          let path := joinSpace (pre ++ [seg])
          let desc := child.options.description.getD
            (if pre.length ≠ 0 then nodeDesc.getD "" else "")
          let group := if pre.length = 0 then seg else pre.headD ""
          { path := path, desc := desc, group := group } ::
            helpRowsAux child.children (pre ++ [seg]) child.options.description)
termination_by sizeOf children
decreasing_by
  rcases child with ⟨cs, h, li, o⟩
  have h1 := List.sizeOf_lt_of_mem hmem
  simp only [CommandNode.children]
  simp only [Prod.mk.sizeOf_spec, CommandNode.mk.sizeOf_spec] at h1 ⊢
  omega

/-- `if (!groups[first]) groups[first] = []; groups[first].push(row)`:
accumulate rows per group, groups in first-appearance order. -/
def groupAdd (g : List (String × List Row)) (k : String) (r : Row) :
    List (String × List Row) :=
  match mapGet g k with
  | none => g ++ [(k, [r])]
  | some rs => mapSet g k (rs ++ [r])

/-- `formatHelpLines` from `src/utils/help.ts`. -/
def formatHelpLines (cliName : String) (root : CommandNode) : List String :=
  let rows := helpRowsAux root.children [] root.options.description
  let groups := rows.foldl (fun g r => groupAdd g r.group r) []
  let groupNames := sortByKey id (groups.map Prod.fst)
  let cmdLines := groupNames.flatMap (fun gname =>
    let groupRows := (mapGet groups gname).getD []
    let pad := (groupRows.foldl (fun m r => max m r.path.length) 0) + 2
    (groupRows.map (fun r =>
      "  " ++ r.path ++ padSpaces (pad - r.path.length) ++
        (if r.desc ≠ "" then "– " ++ r.desc else ""))) ++ [""])
  [bold "Usage:" ++ " " ++ cliName ++ " <command> [...args] [options]", "",
   bold "Commands:", ""] ++ cmdLines ++
  [bold "Options:",
   "  -h, --help            Show help",
   "  -V, --version         Show version",
   "  -q, --quiet           Suppress all output except errors",
   "  -v, --verbose         Chatty output; includes debug logs",
   "  --color=[auto|always|never]   Color mode (default: auto)",
   "  --output=[text|json|yaml]     Output mode (default: text)",
   "  --config=<path>       Path to config file",
   "  --otel-endpoint=<url> OpenTelemetry collector endpoint",
   "",
   "Run \"" ++ cliName ++ " completion [bash|zsh|fish]\" to generate shell completions",
   "",
   bold "Global Options Precedence:" ++ " CLI flags > ENV > config file"]

/-! ### Execution model for the dispatch pipeline (`CLI.run`)

The pipeline's observable actions (console output, span operations,
middleware/handler invocations, dynamic imports) are recorded as an event
trace; the terminal outcome distinguishes a normal return of `run`, a
`Deno.exit(code)` (which terminates the process at once, skipping any
pending `finally` block), and an error propagating out of `run`. -/

inductive Verbosity
  | quiet
  | normal
  | verbose
deriving DecidableEq, Repr

inductive OutputMode
  | text
  | json
  | yaml
deriving DecidableEq, Repr

/-- A thrown JS error: either a structured `CLIError` (message + explicit exit
code, `src/types.ts`) or any other thrown value, carried as its string
rendering. -/
inductive JsErr
  | cli (msg : String) (exitCode : Nat)
  | plain (str : String)
deriving DecidableEq, Repr

/-- `String(err)`; for a `CLIError` the string rendering is modelled as its
message. -/
def JsErr.toStr : JsErr → String
  | .cli m _ => m
  | .plain s => s

inductive Ev
  | out (s : String)        -- console.log
  | errOut (s : String)     -- console.error
  | spanStart (n : String)  -- ctx.startSpan
  | spanOk                  -- ctx.ok
  | spanFail (m : String)   -- ctx.fail
  | spanEnd                 -- ctx.endSpan
  | hook (i : Nat)          -- a middleware hook invocation
  | handlerRun (h : Nat)    -- the command handler invocation
  | imported (p : String)   -- a dynamic import() that resolved
deriving DecidableEq, Repr

inductive RunRes
  | completed               -- run() resolved normally
  | exited (code : Nat)     -- Deno.exit(code)
  | raised (e : JsErr)      -- an error propagated out of run()
deriving DecidableEq, Repr

structure RunOut where
  events : List Ev
  result : RunRes
  tree : CommandNode

/-- A flag/config value (`Record<string, unknown>` entries). -/
inductive Val
  | str (s : String)
  | strs (l : List String)
  | bool (b : Bool)
deriving DecidableEq, Repr

/-- A resolved module export: a callable (handler identifier) or a
non-callable value with the given JS truthiness. -/
inductive ExportVal
  | fn (h : Nat)
  | nonFn (truthy : Bool)
deriving DecidableEq, Repr

/-- Outcome of `schema.safeParse(rawFlags)`: success, a Zod failure report, or
the parse itself throwing. -/
inductive SchemaRes
  | parsed
  | failed (fmt : String)
  | threw (msg : String)
deriving DecidableEq, Repr

/-- External collaborators and opaque callables: config/env loaders' results,
the loadable modules, and the behaviour of handlers, middleware hooks and
flag schemas. -/
structure World where
  fileConfig : List (String × Val) := []
  envOverrides : List (String × Val) := []
  modules : List (String × List (String × ExportVal)) := []
  hrun : Nat → Option JsErr := fun _ => none
  mrun : Nat → Option JsErr := fun _ => none
  srun : Nat → List (String × Val) → SchemaRes := fun _ _ => .parsed

/-- The `CLI` instance state at the time `run` is called. -/
structure CLIState where
  root : CommandNode
  before : List Nat := []
  after : List Nat := []
  name : String := "generic-cli"
  version : String := "0.0.0"

/-- The result of the external `parseArgs` tokenizer (`@std/cli`), step 1 of
the pipeline.  `record` is the parsed object viewed as a key/value record for
the `{...this.#config, ...parsed}` spread. -/
structure Parsed where
  help : Bool := false
  version : Bool := false
  quiet : Bool := false
  verbose : Bool := false
  output : Option String := none
  config : Option String := none
  positionals : List String := []
  dashdash : List String := []
  record : List (String × Val) := []

/-- Object spread `{...a, ...b}`: `b`'s entries overwrite `a`'s in place, new
keys are appended. -/
def recMerge (a b : List (String × Val)) : List (String × Val) :=
  b.foldl (fun acc kv => mapSet acc kv.1 kv.2) a

/-- `printHelp` from `src/cli/helpers.ts` as its emitted events: nothing when
quiet, else one `console.log` per help line. -/
def printHelpEvents (cliName : String) (root : CommandNode) (v : Verbosity) :
    List Ev :=
  if v = .quiet then [] else (formatHelpLines cliName root).map Ev.out

/-- `unknownCommand` from `src/cli/helpers.ts` as its emitted events: error
line and optional suggestion on `console.error` (skipped when quiet), then the
full help with an empty CLI name. -/
def unknownCommandEvents (cmd : String) (root : CommandNode) (v : Verbosity) :
    List Ev :=
  (if v ≠ Verbosity.quiet then
    Ev.errOut (red ("\nUnknown command: " ++ cmd ++ "\n")) ::
      (match suggestFullPath root (cmd.splitOn " ") with
       | some closest => [Ev.errOut ("Did you mean " ++ cyan closest ++ " ?\n")]
       | none => [])
   else []) ++ printHelpEvents "" root v

/-- Sequential execution of middleware hooks: events in registration order; a
throwing hook stops the loop and yields its error. -/
def runHooks (w : World) : List Nat → List Ev × Option JsErr
  | [] => ([], none)
  | i :: rest =>
    match w.mrun i with
    | some e => ([Ev.hook i], some e)
    | none =>
      let r := runHooks w rest
      (Ev.hook i :: r.1, r.2)

/-- JS truthiness of `imported[symbol]` (`undefined` is falsy, functions are
truthy). -/
def truthyVal : Option ExportVal → Bool
  | some (.fn _) => true
  | some (.nonFn t) => t
  | none => false

/-- `symbol && imported[symbol] ? imported[symbol] : imported.default`. -/
def chooseExport (mod : List (String × ExportVal)) (symbol : String) :
    Option ExportVal :=
  if symbol ≠ "" ∧ truthyVal (mapGet mod symbol) = true then mapGet mod symbol
  else mapGet mod "default"

/-- Rewrite the node at the end of an existing path (used for the lazy-handler
cache write-back `node.handler = handler; node.lazyImport = undefined`, which
mutates the node inside the tree). -/
def updateAt (f : CommandNode → CommandNode) :
    CommandNode → List String → CommandNode
  | node, [] => f node
  | node, seg :: rest =>
    match mapGet node.children seg with
    | none => node
    | some child =>
      node.withChildren (mapSet node.children seg (updateAt f child rest))

/-- Steps 11-13 of `CLI.run`: span start, handler invocation, outcome mapping
(structured `CLIError` exits with its code, anything else exits 1; the
`finally { ctx.endSpan() }` only runs when `Deno.exit` was not called), then
the after-middleware. -/
def runFromSpan (st : CLIState) (w : World) (handler : Nat)
    (spanName : String) : List Ev × RunRes :=
  match w.hrun handler with
  | none =>
    let a := runHooks w st.after
    ([Ev.spanStart spanName, Ev.handlerRun handler, Ev.spanOk, Ev.spanEnd] ++ a.1,
     match a.2 with
     | some e => .raised e
     | none => .completed)
  | some e =>
    ([Ev.spanStart spanName, Ev.handlerRun handler, Ev.spanFail e.toStr,
      Ev.out (red (match e with | .cli m _ => m | .plain s => s))],
     .exited (match e with | .cli _ c => c | .plain _ => 1))

/-- Step 10 of `CLI.run`: Zod flag validation (when a schema is present), then
the span/handler phase. -/
def runFromValidation (st : CLIState) (w : World) (options : CommandOptions)
    (handler : Nat) (rawFlags : List (String × Val)) (spanName : String) :
    List Ev × RunRes :=
  match options.flagsSchema with
  | some sid =>
    match w.srun sid rawFlags with
    | .parsed => runFromSpan st w handler spanName
    | .failed fmt =>
      ([Ev.out (red ("\nInvalid flags:\n" ++ fmt))], .exited 1)
    | .threw m =>
      ([Ev.out (red ("Error parsing flags: " ++ m))], .exited 1)
  | none => runFromSpan st w handler spanName

/-- `CLI.run` from `src/cli/mod.ts` (steps after the external `parseArgs`):
version short-circuit, verbosity resolution, help short-circuit, traversal,
unknown-command branch, config/flag merge, before-middleware, lazy handler
resolution with cache write-back, validation, span, handler, outcome mapping,
after-middleware. -/
def run (st : CLIState) (w : World) (parsed : Parsed) : RunOut :=
  let _outputMode : OutputMode :=
    if parsed.output = some "json" then .json
    else if parsed.output = some "yaml" then .yaml
    else .text
  let cfg := recMerge w.fileConfig w.envOverrides
  if parsed.version then
    { events := [.out (st.name ++ " " ++ st.version)], result := .completed,
      tree := st.root }
  else
    let verbosity : Verbosity :=
      if parsed.quiet then .quiet
      else if parsed.verbose then .verbose
      else .normal
    let positionals := parsed.positionals
    if parsed.help || positionals.isEmpty then
      { events := printHelpEvents st.name st.root verbosity,
        result := .completed, tree := st.root }
    else
      let t := traverse st.root positionals
      let node := t.1
      let consumed := t.2
      if node.handler = none ∧ node.lazyImport = none then
        let unknownCmdName := joinSpace (positionals.take (consumed + 1))
        { events := unknownCommandEvents unknownCmdName st.root verbosity,
          result := .completed, tree := st.root }
      else
        let rawFlags := mapSet (recMerge cfg parsed.record) "--"
          (Val.strs parsed.dashdash)
        let hres := runHooks w st.before
        match hres.2 with
        | some e => { events := hres.1, result := .raised e, tree := st.root }
        | none =>
          let spanName0 := joinSpace (positionals.take consumed)
          let spanName := if spanName0 = "" then "root" else spanName0
          match node.handler with
          | some h =>
            let r := runFromValidation st w node.options h rawFlags spanName
            { events := hres.1 ++ r.1, result := r.2, tree := st.root }
          | none =>
            match node.lazyImport with
            | none =>
              -- unreachable: excluded by the unknown-command guard above
              { events := hres.1, result := .completed, tree := st.root }
            | some li =>
              match mapGet w.modules li.path with
              | none =>
                { events := hres.1,
                  result := .raised (.plain ("TypeError: module not found: " ++ li.path)),
                  tree := st.root }
              | some m =>
                match chooseExport m li.symbol with
                | some (.fn h) =>
                  let tree' := updateAt
                    (fun nd => .mk nd.children (some h) none nd.options)
                    st.root (positionals.take consumed)
                  let r := runFromValidation st w node.options h rawFlags spanName
                  { events := hres.1 ++ [.imported li.path] ++ r.1,
                    result := r.2, tree := tree' }
                | _ =>
                  { events := hres.1 ++ [.imported li.path],
                    result := .raised (.plain
                      ("Lazy import did not yield a function (" ++ li.path ++ ")")),
                    tree := st.root }

/-! ### Specification-side helpers for registration -/

/-- An (optional) node carries no registration: free for registration. -/
def optFree : Option CommandNode → Prop
  | none => True
  | some nd => nd.handler = none ∧ nd.lazyImport = none

/-- The successful-path result of `insertAt` (walk, creating missing nodes,
and transform the terminal with `res`). -/
def insertAtF (res : CommandNode → CommandNode) :
    CommandNode → List String → CommandNode
  | node, [] => res node
  | node, seg :: rest =>
    node.withChildren (mapSet node.children seg
      (insertAtF res ((mapGet node.children seg).getD emptyNode) rest))

/-- Terminal-node transformation of a successful `registerCommand`. -/
def resH (handler : Nat) (options : CommandOptions) (nd : CommandNode) :
    CommandNode :=
  .mk nd.children (some handler) nd.lazyImport options

/-- Terminal-node transformation of a successful `registerLazyCommand`. -/
def resL (li : LazyImport) (options : CommandOptions) (nd : CommandNode) :
    CommandNode :=
  .mk nd.children nd.handler (some li) options

/-! ### Specification-side helpers for the edit-distance dynamic program -/

/-- The intended contents of the tail of a DP row: for each non-empty prefix
`p ++ (as.take i)` of the first string, the classic distance between its
reversal and the reversal of the processed part `q` of the second string.
(The DP consumes characters left to right, which corresponds to distances
between reversed prefixes under the front-peeling classic recursion.) -/
def specTail : List Char → List Char → List Char → List Nat
  | _, [], _ => []
  | p, x :: xs, q =>
    levClassic (p ++ [x]).reverse q.reverse :: specTail (p ++ [x]) xs q

/-- The intended contents of a full DP row after consuming `q` from the second
string. -/
def specRow (a q : List Char) : List Nat :=
  q.length :: specTail [] a q

/-! ### Concrete example registries used by witnesses and counterexamples -/

/-- `["user"]` registered with alias `"u"`, then `["user","add"]` registered:
the situation showing alias nodes do not share the primary node's children. -/
def c5tree : CommandNode :=
  match registerCommand emptyNode ["user"] 1 { aliases := ["u"] } with
  | .ok t =>
    match registerCommand t ["user", "add"] 2 {} with
    | .ok t2 => t2
    | .error _ => emptyNode
  | .error _ => emptyNode

/-- `["user"]` registered with alias `"u"` (nothing else). -/
def c5wtree : CommandNode :=
  match registerCommand emptyNode ["user"] 1 { aliases := ["u"] } with
  | .ok t => t
  | .error _ => emptyNode

/-- A registry with only `["user","add"]` registered (suggestion witness). -/
def c6tree : CommandNode :=
  match registerCommand emptyNode ["user", "add"] 1 {} with
  | .ok t => t
  | .error _ => emptyNode

/-- A registry with only `["user","add"]` registered. -/
def c8tree : CommandNode :=
  match registerCommand emptyNode ["user", "add"] 1 {} with
  | .ok t => t
  | .error _ => emptyNode

/-- A registry with only `["user","add"]` registered (unknown-command cases). -/
def c1tree : CommandNode :=
  match registerCommand emptyNode ["user", "add"] 1 {} with
  | .ok t => t
  | .error _ => emptyNode

/-- A registry with only `["user"]` registered. -/
def c2tree : CommandNode :=
  match registerCommand emptyNode ["user"] 1 {} with
  | .ok t => t
  | .error _ => emptyNode

/-- The world for the span claim: every handler throws a plain error. -/
def c2world : World := { hrun := fun _ => some (.plain "boom") }

/-- A registry with `["user"]` registered lazily from `"mod.ts"` under the
export name `"foo"`. -/
def c3tree : CommandNode :=
  match registerLazyCommand emptyNode ["user"] "mod.ts" "foo" {} with
  | .ok t => t
  | .error _ => emptyNode

/-- The world for the lazy-resolution claim: `"mod.ts"` has no `"foo"` export,
only a callable `default` export (handler identifier 7). -/
def c3world : World := { modules := [("mod.ts", [("default", ExportVal.fn 7)])] }

/-- A registry with only `["user"]` registered (middleware cases). -/
def c4tree : CommandNode :=
  match registerCommand emptyNode ["user"] 1 {} with
  | .ok t => t
  | .error _ => emptyNode

/-- The world for the middleware claim: hook 0 throws, the rest succeed. -/
def c4world : World :=
  { mrun := fun i => if i = 0 then some (.plain "hookboom") else none }

/-- A registry with only `["user"]` registered (quiet-mode witness). -/
def c10tree : CommandNode :=
  match registerCommand emptyNode ["user"] 1 {} with
  | .ok t => t
  | .error _ => emptyNode

/-! ## Theorems -/

theorem mapGet_mapSet_self {α : Type} (m : List (String × α)) (k : String)
    (v : α) : mapGet (mapSet m k v) k = some v := by
  induction m with
  | nil => simp [mapSet, mapGet]
  | cons kv rest ih =>
    obtain ⟨k', v'⟩ := kv
    by_cases h : k' = k <;> simp [mapSet, mapGet, h, ih]

theorem mapGet_mapSet_ne {α : Type} (m : List (String × α)) (k k' : String)
    (v : α) (h : k ≠ k') : mapGet (mapSet m k v) k' = mapGet m k' := by
  induction m with
  | nil => simp [mapSet, mapGet, h]
  | cons kv rest ih =>
    obtain ⟨k0, v0⟩ := kv
    by_cases h0 : k0 = k
    · subst h0
      simp [mapSet, mapGet, h, ih]
    · simp [mapSet, mapGet, h0, ih]

theorem traverse_consumed_le (root : CommandNode) (segs : List String) :
    (traverse root segs).2 ≤ segs.length := by
  induction segs generalizing root with
  | nil => simp [traverse]
  | cons s rest ih =>
    simp only [traverse]
    match h : mapGet root.children s with
    | none => simp
    | some child =>
      have := ih child
      simpa using Nat.succ_le_succ this

theorem nodeAt_take_traverse (root : CommandNode) (segs : List String) :
    nodeAt root (segs.take (traverse root segs).2) = some (traverse root segs).1 := by
  induction segs generalizing root with
  | nil => simp [traverse, nodeAt]
  | cons s rest ih =>
    simp only [traverse]
    match h : mapGet root.children s with
    | none => simp [nodeAt]
    | some child =>
      simpa [nodeAt, h] using ih child

theorem traverse_stop (root : CommandNode) (segs : List String)
    (h : (traverse root segs).2 < segs.length) :
    mapGet (traverse root segs).1.children
      (segs.getD (traverse root segs).2 "") = none := by
  induction segs generalizing root with
  | nil => simp [traverse] at h
  | cons s rest ih =>
    cases hm : mapGet root.children s with
    | none => simp [traverse, hm]
    | some child =>
      have h' : (traverse child rest).2 < rest.length := by
        simp only [traverse, hm] at h
        simpa using h
      have := ih child h'
      simp only [traverse, hm]
      simpa using this

theorem traverse_maximal (root : CommandNode) (segs : List String) (k : Nat)
    (hk : k ≤ segs.length) (h : (nodeAt root (segs.take k)).isSome) :
    k ≤ (traverse root segs).2 := by
  induction segs generalizing root k with
  | nil =>
    simp only [List.length_nil, Nat.le_zero] at hk
    subst hk
    exact Nat.zero_le _
  | cons s rest ih =>
    match k with
    | 0 => exact Nat.zero_le _
    | k' + 1 =>
      simp only [List.take_succ_cons, nodeAt] at h
      match hm : mapGet root.children s with
      | none => rw [hm] at h; simp at h
      | some child =>
        rw [hm] at h
        have hk' : k' ≤ rest.length := by simpa using hk
        have := ih child k' hk' h
        simp only [traverse, hm]
        omega

theorem nodeAt_full_traverse (root : CommandNode) (segs : List String)
    (nd : CommandNode) (h : nodeAt root segs = some nd) :
    traverse root segs = (nd, segs.length) := by
  induction segs generalizing root with
  | nil => simpa [traverse, nodeAt] using h
  | cons s rest ih =>
    simp only [nodeAt] at h
    match hm : mapGet root.children s with
    | none => rw [hm] at h; simp at h
    | some child =>
      rw [hm] at h
      simp [traverse, hm, ih child h]

/-- C8: `traverse` performs a greedy non-backtracking longest-prefix match:
it returns the node reached by following children along the maximal matching
leading prefix together with `consumed` equal to that prefix's length; the
empty sequence returns the root with `consumed = 0`, and when `consumed` is
short of the input, the next segment has no matching child. -/
theorem c8_traverse_greedy (root : CommandNode) (segs : List String) :
    traverse root [] = (root, 0) ∧
    (traverse root segs).2 ≤ segs.length ∧
    nodeAt root (segs.take (traverse root segs).2) = some (traverse root segs).1 ∧
    ((traverse root segs).2 < segs.length →
      mapGet (traverse root segs).1.children
        (segs.getD (traverse root segs).2 "") = none) ∧
    (∀ k, k ≤ segs.length → (nodeAt root (segs.take k)).isSome →
      k ≤ (traverse root segs).2) := by
  exact ⟨rfl, traverse_consumed_le root segs, nodeAt_take_traverse root segs,
    fun h => traverse_stop root segs h,
    fun k hk h => traverse_maximal root segs k hk h⟩

@[simp]
theorem children_mk (cs : List (String × CommandNode)) (h : Option Nat)
    (li : Option LazyImport) (o : CommandOptions) :
    (CommandNode.mk cs h li o).children = cs := rfl

@[simp]
theorem handler_mk (cs : List (String × CommandNode)) (h : Option Nat)
    (li : Option LazyImport) (o : CommandOptions) :
    (CommandNode.mk cs h li o).handler = h := rfl

@[simp]
theorem lazyImport_mk (cs : List (String × CommandNode)) (h : Option Nat)
    (li : Option LazyImport) (o : CommandOptions) :
    (CommandNode.mk cs h li o).lazyImport = li := rfl

@[simp]
theorem options_mk (cs : List (String × CommandNode)) (h : Option Nat)
    (li : Option LazyImport) (o : CommandOptions) :
    (CommandNode.mk cs h li o).options = o := rfl

@[simp]
theorem children_withChildren (n : CommandNode) (cs : List (String × CommandNode)) :
    (n.withChildren cs).children = cs := by cases n; rfl

@[simp]
theorem handler_withChildren (n : CommandNode) (cs : List (String × CommandNode)) :
    (n.withChildren cs).handler = n.handler := by cases n; rfl

@[simp]
theorem lazyImport_withChildren (n : CommandNode) (cs : List (String × CommandNode)) :
    (n.withChildren cs).lazyImport = n.lazyImport := by cases n; rfl

@[simp]
theorem options_withChildren (n : CommandNode) (cs : List (String × CommandNode)) :
    (n.withChildren cs).options = n.options := by cases n; rfl

@[simp]
theorem optFree_none : optFree none := trivial

@[simp]
theorem optFree_some (nd : CommandNode) :
    optFree (some nd) ↔ nd.handler = none ∧ nd.lazyImport = none := Iff.rfl

theorem nodeAt_append (t : CommandNode) (q1 q2 : List String) :
    nodeAt t (q1 ++ q2) = (nodeAt t q1).bind (fun m => nodeAt m q2) := by
  induction q1 generalizing t with
  | nil => simp [nodeAt]
  | cons s rest ih =>
    simp only [List.cons_append, nodeAt]
    cases mapGet t.children s with
    | none => simp
    | some child => simpa using ih child

theorem optFree_emptyNode (q : List String) : optFree (nodeAt emptyNode q) := by
  cases q with
  | nil => exact ⟨rfl, rfl⟩
  | cons s rest => simp [nodeAt, emptyNode, CommandNode.children, mapGet, optFree]

theorem insertAt_eq_of_free (k : CommandNode → Except String CommandNode)
    (res : CommandNode → CommandNode)
    (hk : ∀ nd, nd.handler = none → nd.lazyImport = none → k nd = .ok (res nd))
    (root : CommandNode) (p : List String) (hfree : optFree (nodeAt root p)) :
    insertAt k root p = .ok (insertAtF res root p) := by
  induction p generalizing root with
  | nil =>
    have h := hfree
    simp only [nodeAt, optFree] at h
    simp [insertAt, insertAtF, hk root h.1 h.2]
  | cons seg rest ih =>
    simp only [insertAt, insertAtF]
    cases hm : mapGet root.children seg with
    | none =>
      simp only [Option.getD_none]
      rw [ih emptyNode (optFree_emptyNode rest)]
    | some child =>
      have hfree' : optFree (nodeAt child rest) := by
        simpa [nodeAt, hm] using hfree
      simp only [Option.getD_some]
      rw [ih child hfree']

theorem insertAt_error_of_registered
    (k : CommandNode → Except String CommandNode) (e : String)
    (hk : ∀ nd, nd.handler.isSome ∨ nd.lazyImport.isSome → k nd = .error e)
    (root : CommandNode) (p : List String) (nd : CommandNode)
    (hnd : nodeAt root p = some nd)
    (hreg : nd.handler.isSome ∨ nd.lazyImport.isSome) :
    insertAt k root p = .error e := by
  induction p generalizing root with
  | nil =>
    have hr : root = nd := by simpa [nodeAt] using hnd
    subst hr
    exact hk _ hreg
  | cons seg rest ih =>
    simp only [nodeAt] at hnd
    cases hm : mapGet root.children seg with
    | none => rw [hm] at hnd; simp at hnd
    | some child =>
      rw [hm] at hnd
      simp only [insertAt, hm, Option.getD_some]
      rw [ih child hnd]

theorem insertAt_ok_nodeAt (k : CommandNode → Except String CommandNode)
    (root t : CommandNode) (p : List String)
    (h : insertAt k root p = .ok t) : ∃ nd, nodeAt t p = some nd := by
  induction p generalizing root t with
  | nil =>
    exact ⟨t, rfl⟩
  | cons seg rest ih =>
    simp only [insertAt] at h
    cases hi : insertAt k ((mapGet root.children seg).getD emptyNode) rest with
    | error e => rw [hi] at h; simp at h
    | ok child' =>
      rw [hi] at h
      simp only [Except.ok.injEq] at h
      subst h
      obtain ⟨nd, hnd⟩ := ih _ _ hi
      refine ⟨nd, ?_⟩
      simp [nodeAt, mapGet_mapSet_self, hnd]

theorem nodeAt_insertAtF (res : CommandNode → CommandNode)
    (root : CommandNode) (p : List String) :
    ∃ nd, nodeAt (insertAtF res root p) p = some (res nd) := by
  induction p generalizing root with
  | nil => exact ⟨root, rfl⟩
  | cons seg rest ih =>
    obtain ⟨nd, hnd⟩ := ih ((mapGet root.children seg).getD emptyNode)
    refine ⟨nd, ?_⟩
    simp [insertAtF, nodeAt, mapGet_mapSet_self, hnd]

theorem insertAtF_preserve (res : CommandNode → CommandNode)
    (hres : ∀ nd, (res nd).children = nd.children)
    (root : CommandNode) (p q : List String) (hne : q ≠ p)
    (hfree : optFree (nodeAt root q)) :
    optFree (nodeAt (insertAtF res root p) q) := by
  induction p generalizing root q with
  | nil =>
    cases q with
    | nil => exact absurd rfl hne
    | cons s qs =>
      simp only [insertAtF, nodeAt, hres]
      simpa [nodeAt] using hfree
  | cons seg rest ih =>
    cases q with
    | nil =>
      simpa [nodeAt, insertAtF] using hfree
    | cons s qs =>
      by_cases hs : s = seg
      · subst hs
        have hq : qs ≠ rest := by
          intro hqr; exact hne (by rw [hqr])
        simp only [insertAtF, nodeAt, children_withChildren, mapGet_mapSet_self]
        cases hm : mapGet root.children s with
        | none =>
          simpa using ih emptyNode qs hq (optFree_emptyNode qs)
        | some child =>
          have hfree' : optFree (nodeAt child qs) := by
            simpa [nodeAt, hm] using hfree
          simpa using ih child qs hq hfree'
      · simp only [insertAtF, nodeAt, children_withChildren]
        rw [mapGet_mapSet_ne _ _ _ _ (fun hh => hs hh.symm)]
        simpa [nodeAt] using hfree

theorem registerCommand_ok_of_free (root : CommandNode) (p : List String)
    (h : Nat) (o : CommandOptions) (ho : o.aliases = []) (hp : p ≠ [])
    (hfree : optFree (nodeAt root p)) :
    registerCommand root p h o = .ok (insertAtF (resH h o) root p) := by
  have hk : ∀ nd : CommandNode, nd.handler = none → nd.lazyImport = none →
      setHandlerK h o (joinSpace p) nd = .ok (resH h o nd) := by
    intro nd h1 h2
    simp [setHandlerK, h1, h2, resH]
  rw [registerCommand, if_neg hp, insertAt_eq_of_free _ _ hk root p hfree]
  simp [ho]

theorem registerLazyCommand_ok_of_free (root : CommandNode) (p : List String)
    (mp sym : String) (o : CommandOptions) (ho : o.aliases = []) (hp : p ≠ [])
    (hfree : optFree (nodeAt root p)) :
    registerLazyCommand root p mp sym o =
      .ok (insertAtF (resL ⟨mp, sym⟩ o) root p) := by
  have hk : ∀ nd : CommandNode, nd.handler = none → nd.lazyImport = none →
      setLazyK ⟨mp, sym⟩ o (joinSpace p) nd = .ok (resL ⟨mp, sym⟩ o nd) := by
    intro nd h1 h2
    simp [setLazyK, h1, h2, resL]
  rw [registerLazyCommand, if_neg hp, insertAt_eq_of_free _ _ hk root p hfree]
  simp [ho]

theorem registerCommand_dup (root : CommandNode) (p : List String) (h : Nat)
    (o : CommandOptions) (hp : p ≠ []) (nd : CommandNode)
    (hnd : nodeAt root p = some nd)
    (hreg : nd.handler.isSome = true ∨ nd.lazyImport.isSome = true) :
    registerCommand root p h o =
      .error ("Command already registered: " ++ joinSpace p) := by
  have hk : ∀ m : CommandNode,
      m.handler.isSome = true ∨ m.lazyImport.isSome = true →
      setHandlerK h o (joinSpace p) m =
        .error ("Command already registered: " ++ joinSpace p) := by
    intro m hm
    simp [setHandlerK, hm]
  rw [registerCommand, if_neg hp,
    insertAt_error_of_registered _ _ hk root p nd hnd hreg]

theorem registerLazyCommand_dup (root : CommandNode) (p : List String)
    (mp sym : String) (o : CommandOptions) (hp : p ≠ []) (nd : CommandNode)
    (hnd : nodeAt root p = some nd)
    (hreg : nd.handler.isSome = true ∨ nd.lazyImport.isSome = true) :
    registerLazyCommand root p mp sym o =
      .error ("Command already registered: " ++ joinSpace p) := by
  have hk : ∀ m : CommandNode,
      m.handler.isSome = true ∨ m.lazyImport.isSome = true →
      setLazyK ⟨mp, sym⟩ o (joinSpace p) m =
        .error ("Command already registered: " ++ joinSpace p) := by
    intro m hm
    simp [setLazyK, hm]
  rw [registerLazyCommand, if_neg hp,
    insertAt_error_of_registered _ _ hk root p nd hnd hreg]

/-- C7: registration fails on an empty path, fails when the terminal node is
already registered (for both the eager and the lazy variant), and two distinct
non-empty paths can both be registered starting from a fresh registry (missing
intermediates being created), while re-registering the first path then fails. -/
theorem c7_registration (root : CommandNode) (h1 h2 : Nat) (o : CommandOptions)
    (p p1 p2 : List String) (mp sym : String) :
    registerCommand root [] h1 o =
      .error "registerCommand() requires at least one path segment" ∧
    registerLazyCommand root [] mp sym o =
      .error "registerLazyCommand() requires at least one path segment" ∧
    (∀ nd, p ≠ [] → nodeAt root p = some nd →
      nd.handler.isSome = true ∨ nd.lazyImport.isSome = true →
      registerCommand root p h1 o =
        .error ("Command already registered: " ++ joinSpace p) ∧
      registerLazyCommand root p mp sym o =
        .error ("Command already registered: " ++ joinSpace p)) ∧
    (p1 ≠ [] → p2 ≠ [] → p1 ≠ p2 →
      ∃ t1 t2, registerCommand emptyNode p1 h1 {} = .ok t1 ∧
        registerCommand t1 p2 h2 {} = .ok t2 ∧
        registerCommand t1 p1 h2 {} =
          .error ("Command already registered: " ++ joinSpace p1)) := by
  refine ⟨by simp [registerCommand], by simp [registerLazyCommand], ?_, ?_⟩
  · intro nd hp hnd hreg
    exact ⟨registerCommand_dup root p h1 o hp nd hnd hreg,
      registerLazyCommand_dup root p mp sym o hp nd hnd hreg⟩
  · intro hp1 hp2 hne
    have h1ok := registerCommand_ok_of_free emptyNode p1 h1 {} rfl hp1
      (optFree_emptyNode p1)
    set t1 := insertAtF (resH h1 {}) emptyNode p1 with ht1
    have hfree2 : optFree (nodeAt t1 p2) :=
      insertAtF_preserve (resH h1 {}) (fun nd => rfl) emptyNode p1 p2
        (fun hh => hne hh.symm) (optFree_emptyNode p2)
    have h2ok := registerCommand_ok_of_free t1 p2 h2 {} rfl hp2 hfree2
    obtain ⟨nd, hnd⟩ := nodeAt_insertAtF (resH h1 {}) emptyNode p1
    have hdup := registerCommand_dup t1 p1 h2 {} hp1 _ hnd
      (by simp [resH])
    exact ⟨t1, _, h1ok, h2ok, hdup⟩

/-- C8 witness: the traversal characterization evaluated on a concrete tree
(`["user","add"]` registered) and input `["user","zzz"]`: one segment is
consumed, the reached node is `nodeAt` of the consumed prefix, the next
segment has no matching child, and the consumed count is maximal. -/
theorem c8_traverse_greedy_witness :
    traverse c8tree [] = (c8tree, 0) ∧
    (traverse c8tree ["user", "zzz"]).2 ≤ 2 ∧
    nodeAt c8tree (["user", "zzz"].take (traverse c8tree ["user", "zzz"]).2) =
      some (traverse c8tree ["user", "zzz"]).1 ∧
    mapGet (traverse c8tree ["user", "zzz"]).1.children
      (["user", "zzz"].getD (traverse c8tree ["user", "zzz"]).2 "") = none ∧
    1 ≤ (traverse c8tree ["user", "zzz"]).2 := by
  have h := c8_traverse_greedy c8tree ["user", "zzz"]
  exact ⟨h.1, h.2.1, h.2.2.1, h.2.2.2.1 (by decide),
    h.2.2.2.2 1 (by decide) (by decide)⟩

/-- C7 witness: the registration contracts evaluated on concrete inputs:
empty-path registration fails, registering `["user"]` then `["user","add"]`
succeeds, and re-registering `["user"]` fails as a duplicate. -/
theorem c7_registration_witness :
    registerCommand emptyNode [] 1 {} =
      .error "registerCommand() requires at least one path segment" ∧
    registerLazyCommand emptyNode [] "mod.ts" "default" {} =
      .error "registerLazyCommand() requires at least one path segment" ∧
    ∃ t1 t2, registerCommand emptyNode ["user"] 1 {} = .ok t1 ∧
      registerCommand t1 ["user", "add"] 2 {} = .ok t2 ∧
      registerCommand t1 ["user"] 2 {} =
        .error ("Command already registered: " ++ joinSpace ["user"]) := by
  have h := c7_registration emptyNode 1 2 {} ["a"] ["user"] ["user", "add"]
    "mod.ts" "default"
  exact ⟨h.1, h.2.1, h.2.2.2 (by decide) (by decide) (by decide)⟩

theorem setChildAt_self (r : CommandNode) (q : List String) (al : String)
    (n par : CommandNode) (hq : nodeAt r q = some par) :
    nodeAt (setChildAt r q al n) (q ++ [al]) = some n := by
  induction q generalizing r with
  | nil =>
    simp [setChildAt, nodeAt, mapGet_mapSet_self]
  | cons s qs ih =>
    simp only [nodeAt] at hq
    cases hm : mapGet r.children s with
    | none => rw [hm] at hq; simp at hq
    | some child =>
      rw [hm] at hq
      simp only [setChildAt, hm, List.cons_append, nodeAt,
        children_withChildren, mapGet_mapSet_self]
      exact ih child hq

theorem setChildAt_preserve_ne (r : CommandNode) (q : List String)
    (al al' : String) (n : CommandNode) (hne : al' ≠ al) :
    nodeAt (setChildAt r q al' n) (q ++ [al]) = nodeAt r (q ++ [al]) := by
  induction q generalizing r with
  | nil =>
    simp only [setChildAt, List.nil_append, nodeAt, children_withChildren]
    rw [mapGet_mapSet_ne _ _ _ _ hne]
  | cons s qs ih =>
    cases hm : mapGet r.children s with
    | none => simp [setChildAt, hm]
    | some child =>
      simp only [setChildAt, hm, List.cons_append, nodeAt,
        children_withChildren, mapGet_mapSet_self]
      exact ih child

theorem setChildAt_keeps (r : CommandNode) (q : List String) (al : String)
    (n par : CommandNode) (hq : nodeAt r q = some par) :
    nodeAt (setChildAt r q al n) q =
      some (par.withChildren (mapSet par.children al n)) := by
  induction q generalizing r with
  | nil =>
    have hr : r = par := by simpa [nodeAt] using hq
    subst hr
    simp [setChildAt, nodeAt]
  | cons s qs ih =>
    simp only [nodeAt] at hq
    cases hm : mapGet r.children s with
    | none => rw [hm] at hq; simp at hq
    | some child =>
      rw [hm] at hq
      simp only [setChildAt, hm, nodeAt, children_withChildren,
        mapGet_mapSet_self]
      exact ih child hq

theorem foldl_setChildAt_preserve (q : List String) (anode : CommandNode)
    (as : List String) (r : CommandNode) (al : String) (hal : al ∉ as) :
    nodeAt (as.foldl (fun r' a => setChildAt r' q a anode) r) (q ++ [al]) =
      nodeAt r (q ++ [al]) := by
  induction as generalizing r with
  | nil => rfl
  | cons a as' ih =>
    have h1 : al ∉ as' := fun h => hal (List.mem_cons_of_mem _ h)
    have h2 : a ≠ al := fun h => hal (h ▸ List.mem_cons_self _ _)
    rw [List.foldl_cons, ih _ h1, setChildAt_preserve_ne r q al a anode h2]

theorem foldl_setChildAt_mem (q : List String) (anode : CommandNode)
    (as : List String) (r par : CommandNode) (al : String)
    (hq : nodeAt r q = some par) (hmem : al ∈ as) (hnd : as.Nodup) :
    nodeAt (as.foldl (fun r' a => setChildAt r' q a anode) r) (q ++ [al]) =
      some anode := by
  induction as generalizing r par with
  | nil => cases hmem
  | cons a as' ih =>
    rcases List.mem_cons.mp hmem with rfl | hmem'
    · have ha : al ∉ as' := (List.nodup_cons.mp hnd).1
      rw [List.foldl_cons, foldl_setChildAt_preserve q anode as' _ al ha]
      exact setChildAt_self r q al anode par hq
    · have hq' := setChildAt_keeps r q a anode par hq
      rw [List.foldl_cons]
      exact ih _ _ hq' hmem' (List.nodup_cons.mp hnd).2

/-- C5 (amended): each alias becomes a sibling node under the same parent
sharing the same handler identifier (resp. the same lazy-import descriptor)
with options copied and `hidden` forced true, and traversing the registered
path with its final segment replaced by the alias consumes the whole path and
resolves to that alias node.  (The original claim's "any path in which the
primary segment is replaced by the alias resolves identically" fails for
longer paths, because alias nodes are created with no children — see the
counterexample.) -/
theorem c5_alias_sibling (root : CommandNode) (p : List String) (h : Nat)
    (mp sym : String) (opts : CommandOptions) (al : String) (hp : p ≠ [])
    (hnd : opts.aliases.Nodup) (hal : al ∈ opts.aliases) :
    (∀ t, registerCommand root p h opts = .ok t →
      traverse t (p.dropLast ++ [al]) =
        (.mk [] (some h) none { opts with hidden := true }, p.length)) ∧
    (∀ t, registerLazyCommand root p mp sym opts = .ok t →
      traverse t (p.dropLast ++ [al]) =
        (.mk [] none (some ⟨mp, sym⟩) { opts with hidden := true }, p.length)) := by
  have hlen : (p.dropLast ++ [al]).length = p.length := by
    have : 0 < p.length := List.length_pos.mpr hp
    simp [List.length_dropLast]
    omega
  constructor
  · intro t hreg
    rw [registerCommand, if_neg hp] at hreg
    cases hi : insertAt (setHandlerK h opts (joinSpace p)) root p with
    | error e => rw [hi] at hreg; simp at hreg
    | ok root' =>
      rw [hi] at hreg
      simp only [Except.ok.injEq] at hreg
      subst hreg
      obtain ⟨nd, hndAt⟩ := insertAt_ok_nodeAt _ root root' p hi
      have hsplit : p.dropLast ++ [p.getLast hp] = p :=
        List.dropLast_append_getLast hp
      have hpar : ∃ par, nodeAt root' p.dropLast = some par := by
        rw [← hsplit, nodeAt_append] at hndAt
        cases hd : nodeAt root' p.dropLast with
        | none => rw [hd] at hndAt; simp at hndAt
        | some par => exact ⟨par, rfl⟩
      obtain ⟨par, hpar⟩ := hpar
      have := foldl_setChildAt_mem p.dropLast
        (.mk [] (some h) none { opts with hidden := true }) opts.aliases
        root' par al hpar hal hnd
      rw [nodeAt_full_traverse _ _ _ this, hlen]
  · intro t hreg
    rw [registerLazyCommand, if_neg hp] at hreg
    cases hi : insertAt (setLazyK ⟨mp, sym⟩ opts (joinSpace p)) root p with
    | error e => rw [hi] at hreg; simp at hreg
    | ok root' =>
      rw [hi] at hreg
      simp only [Except.ok.injEq] at hreg
      subst hreg
      obtain ⟨nd, hndAt⟩ := insertAt_ok_nodeAt _ root root' p hi
      have hsplit : p.dropLast ++ [p.getLast hp] = p :=
        List.dropLast_append_getLast hp
      have hpar : ∃ par, nodeAt root' p.dropLast = some par := by
        rw [← hsplit, nodeAt_append] at hndAt
        cases hd : nodeAt root' p.dropLast with
        | none => rw [hd] at hndAt; simp at hndAt
        | some par => exact ⟨par, rfl⟩
      obtain ⟨par, hpar⟩ := hpar
      have := foldl_setChildAt_mem p.dropLast
        (.mk [] none (some ⟨mp, sym⟩) { opts with hidden := true }) opts.aliases
        root' par al hpar hal hnd
      rw [nodeAt_full_traverse _ _ _ this, hlen]

/-- C5 witness: the amended statement evaluated on a concrete registration.
Registering `["user"]` with alias `"u"` makes `traverse ["u"]` resolve to the
hidden alias node carrying the same handler, consuming one segment. -/
theorem c5_alias_sibling_witness :
    registerCommand emptyNode ["user"] 1 { aliases := ["u"] } = .ok c5wtree ∧
    traverse c5wtree ((["user"] : List String).dropLast ++ ["u"]) =
      (.mk [] (some 1) none { aliases := ["u"], hidden := true }, 1) :=
  ⟨rfl,
    (c5_alias_sibling emptyNode ["user"] 1 "m" "d" { aliases := ["u"] } "u"
      (by decide) (by decide) (by decide)).1 c5wtree rfl⟩

/-- C5 counterexample: the claim's "traversing any path in which the primary
segment is replaced by the alias resolves identically to the primary path" is
false.  With `["user"]` registered under alias `"u"` and `["user","add"]`
registered, the primary path `["user","add"]` consumes 2 segments and reaches
the `add` handler, while the alias path `["u","add"]` consumes only 1 segment
and stays at the alias node. -/
theorem c5_alias_counterexample :
    (traverse c5tree ["user", "add"]).2 = 2 ∧
    (traverse c5tree ["user", "add"]).1.handler = some 2 ∧
    (traverse c5tree ["u", "add"]).2 = 1 ∧
    (traverse c5tree ["u", "add"]).1.handler = some 1 ∧
    traverse c5tree ["u", "add"] ≠ traverse c5tree ["user", "add"] := by
  refine ⟨rfl, rfl, rfl, rfl, ?_⟩
  intro hcontra
  have : (traverse c5tree ["u", "add"]).2 = (traverse c5tree ["user", "add"]).2 := by
    rw [hcontra]
  rw [show (traverse c5tree ["u", "add"]).2 = 1 from rfl,
    show (traverse c5tree ["user", "add"]).2 = 2 from rfl] at this
  exact absurd this (by decide)

/-! ### Edit distance: the rolling-row program computes the classic distance -/

theorem levClassic_nil_left (ys : List Char) : levClassic [] ys = ys.length := by
  simp [levClassic]

theorem levClassic_nil_right (xs : List Char) : levClassic xs [] = xs.length := by
  cases xs <;> simp [levClassic]

theorem levClassic_cons_cons (x y : Char) (xs ys : List Char) :
    levClassic (x :: xs) (y :: ys) =
      min (levClassic xs (y :: ys) + 1)
        (min (levClassic (x :: xs) ys + 1)
          (levClassic xs ys + if x = y then 0 else 1)) := by
  simp only [levClassic]

theorem levClassic_self (xs : List Char) : levClassic xs xs = 0 := by
  induction xs with
  | nil => simp [levClassic]
  | cons x xs ih => simp [levClassic_cons_cons, ih]

theorem levClassic_symm_aux :
    ∀ n (a b : List Char), a.length + b.length ≤ n →
      levClassic a b = levClassic b a := by
  intro n
  induction n with
  | zero =>
    intro a b h
    match a, b with
    | [], [] => rfl
    | _ :: _, _ => simp at h
    | [], _ :: _ => simp at h
  | succ n ih =>
    intro a b h
    match a, b with
    | [], b => simp [levClassic_nil_left, levClassic_nil_right]
    | _ :: _, [] => simp [levClassic_nil_left, levClassic_nil_right]
    | x :: xs, y :: ys =>
      simp only [List.length_cons] at h
      have e1 := ih xs (y :: ys) (by simp; omega)
      have e2 := ih (x :: xs) ys (by simp; omega)
      have e3 := ih xs ys (by omega)
      rw [levClassic_cons_cons, levClassic_cons_cons, e1, e2, e3]
      have hxy : (if x = y then 0 else 1) = (if y = x then 0 else 1) := by
        by_cases hc : x = y
        · simp [hc]
        · have hc' : ¬y = x := fun hh => hc hh.symm
          simp [hc, hc']
      rw [hxy]
      omega

theorem levClassic_symm (a b : List Char) : levClassic a b = levClassic b a :=
  levClassic_symm_aux (a.length + b.length) a b le_rfl

theorem levClassic_snoc_aux :
    ∀ n (p q : List Char) (x y : Char), p.length + q.length ≤ n →
      levClassic (p ++ [x]) (q ++ [y]) =
        min (levClassic p (q ++ [y]) + 1)
          (min (levClassic (p ++ [x]) q + 1)
            (levClassic p q + if x = y then 0 else 1)) := by
  intro n
  induction n with
  | zero =>
    intro p q x y h
    match p, q with
    | [], [] =>
      simp only [List.nil_append, levClassic_cons_cons, levClassic_nil_left,
        levClassic_nil_right, List.length_cons, List.length_nil,
        List.length_singleton]
    | _ :: _, _ => simp at h
    | [], _ :: _ => simp at h
  | succ n ih =>
    intro p q x y h
    match p, q with
    | [], [] =>
      simp only [List.nil_append, levClassic_cons_cons, levClassic_nil_left,
        levClassic_nil_right, List.length_cons, List.length_nil,
        List.length_singleton]
    | [], q0 :: q' =>
      have e1 := ih [] q' x y (by simp at h ⊢; omega)
      simp only [List.nil_append] at e1
      simp only [List.nil_append, List.cons_append]
      rw [levClassic_cons_cons x q0 [] (q' ++ [y]), e1,
        levClassic_cons_cons x q0 [] q']
      simp only [levClassic_nil_left, List.length_append, List.length_cons,
        List.length_nil, List.length_singleton]
      omega
    | p0 :: p', [] =>
      have e1 := ih p' [] x y (by simp at h ⊢; omega)
      simp only [List.nil_append] at e1
      simp only [List.nil_append, List.cons_append]
      rw [levClassic_cons_cons p0 y (p' ++ [x]) [], e1,
        levClassic_cons_cons p0 y p' []]
      simp only [levClassic_nil_left, levClassic_nil_right,
        List.length_append, List.length_cons, List.length_nil,
        List.length_singleton]
      omega
    | p0 :: p', q0 :: q' =>
      simp only [List.length_cons] at h
      have e1 := ih p' (q0 :: q') x y (by simp; omega)
      have e2 := ih (p0 :: p') q' x y (by simp; omega)
      have e3 := ih p' q' x y (by omega)
      simp only [List.cons_append] at e1 e2 e3 ⊢
      rw [levClassic_cons_cons p0 q0 (p' ++ [x]) (q' ++ [y]), e1, e2, e3,
        levClassic_cons_cons p0 q0 p' (q' ++ [y]),
        levClassic_cons_cons p0 q0 (p' ++ [x]) q',
        levClassic_cons_cons p0 q0 p' q']
      have hmin : ∀ a b c : Nat, min a b + c = min (a + c) (b + c) := by
        intro a b c; omega
      simp only [hmin, min_assoc]
      refine le_antisymm ?_ ?_ <;> simp only [le_min_iff, min_le_iff] <;> omega

theorem levClassic_snoc (p q : List Char) (x y : Char) :
    levClassic (p ++ [x]) (q ++ [y]) =
      min (levClassic p (q ++ [y]) + 1)
        (min (levClassic (p ++ [x]) q + 1)
          (levClassic p q + if x = y then 0 else 1)) :=
  levClassic_snoc_aux (p.length + q.length) p q x y le_rfl

theorem levClassic_reverse_aux :
    ∀ n (a b : List Char), a.length + b.length ≤ n →
      levClassic a.reverse b.reverse = levClassic a b := by
  intro n
  induction n with
  | zero =>
    intro a b h
    match a, b with
    | [], [] => rfl
    | _ :: _, _ => simp at h
    | [], _ :: _ => simp at h
  | succ n ih =>
    intro a b h
    match a, b with
    | [], b => simp [levClassic_nil_left]
    | _ :: _, [] => simp [levClassic_nil_right]
    | x :: xs, y :: ys =>
      simp only [List.length_cons] at h
      have e1 := ih xs (y :: ys) (by simp; omega)
      have e2 := ih (x :: xs) ys (by simp; omega)
      have e3 := ih xs ys (by omega)
      rw [List.reverse_cons, List.reverse_cons, levClassic_snoc]
      rw [← List.reverse_cons y ys, e1]
      rw [← List.reverse_cons x xs, e2, e3, levClassic_cons_cons]

theorem levClassic_reverse (a b : List Char) :
    levClassic a.reverse b.reverse = levClassic a b :=
  levClassic_reverse_aux (a.length + b.length) a b le_rfl

theorem rowStep_spec (bj : Char) :
    ∀ (as p q : List Char),
      rowStep bj as (specTail p as q)
        (levClassic p.reverse q.reverse)
        (levClassic p.reverse (q ++ [bj]).reverse) =
      specTail p as (q ++ [bj]) := by
  intro as
  induction as with
  | nil => intro p q; rfl
  | cons x xs ih =>
    intro p q
    have hrev : (q ++ [bj]).reverse = bj :: q.reverse := by simp
    have hrevp : (p ++ [x]).reverse = x :: p.reverse := by simp
    simp only [specTail, rowStep]
    rw [hrevp, hrev, levClassic_cons_cons]
    congr 1
    simpa only [hrevp, hrev, levClassic_cons_cons] using ih (p ++ [x]) q

theorem nextRow_spec (a q : List Char) (bj : Char) :
    nextRow a (specRow a q) bj = specRow a (q ++ [bj]) := by
  have hd : (q.length : Nat) = levClassic [].reverse q.reverse := by
    simp [levClassic_nil_left]
  have hd' : (q.length + 1 : Nat) = levClassic [].reverse (q ++ [bj]).reverse := by
    simp [levClassic_nil_left]
  have hd2 : levClassic [].reverse q.reverse + 1 =
      levClassic [].reverse (q ++ [bj]).reverse := by
    simp [levClassic_nil_left]
  simp only [specRow, nextRow]
  congr 1
  · simp
  · rw [hd, hd2]
    exact rowStep_spec bj a [] q

theorem specTail_getLastD (q : List Char) :
    ∀ (as p : List Char),
      (specTail p as q).getLastD (levClassic p.reverse q.reverse) =
        levClassic (p ++ as).reverse q.reverse := by
  intro as
  induction as with
  | nil => intro p; simp [specTail]
  | cons x xs ih =>
    intro p
    simp only [specTail, List.getLastD_cons]
    rw [ih (p ++ [x])]
    simp

theorem levLoop_spec (a : List Char) :
    ∀ (bs q : List Char),
      levLoop a (specRow a q) bs = levClassic a.reverse (q ++ bs).reverse := by
  intro bs
  induction bs with
  | nil =>
    intro q
    have h := specTail_getLastD q a []
    simp only [List.nil_append] at h
    simp only [levLoop, specRow, List.getLastD_cons, List.append_nil]
    rw [show (q.length : Nat) = levClassic [].reverse q.reverse by
      simp [levClassic_nil_left]]
    exact h
  | cons bj bs' ih =>
    intro q
    simp only [levLoop]
    rw [nextRow_spec a q bj, ih (q ++ [bj])]
    simp

theorem specTail_nilq (a : List Char) :
    ∀ p : List Char,
      specTail p a [] = (List.range a.length).map (fun k => p.length + k + 1) := by
  induction a with
  | nil => intro p; simp [specTail]
  | cons x xs ih =>
    intro p
    simp only [specTail, List.length_cons, List.range_succ_eq_map,
      List.map_cons, List.map_map]
    congr 1
    · simp [levClassic_nil_right]
    · rw [ih (p ++ [x])]
      apply List.map_congr_left
      intro k _
      simp [Function.comp]
      omega

theorem specRow_nil (a : List Char) :
    List.range (a.length + 1) = specRow a [] := by
  simp only [specRow, List.length_nil, List.range_succ_eq_map,
    specTail_nilq a []]
  congr 1
  apply List.map_congr_left
  intro k _
  omega

theorem levLoop_eval (a b : List Char) :
    levLoop a (List.range (a.length + 1)) b = levClassic a b := by
  rw [specRow_nil a, levLoop_spec a b [], List.nil_append, levClassic_reverse]

theorem levenshteinL_eq_levClassic (a b : List Char) :
    levenshteinL a b = levClassic a b := by
  unfold levenshteinL
  by_cases hab : a = b
  · subst hab
    simp [levClassic_self]
  · rw [if_neg hab]
    by_cases ha : a.length = 0
    · rw [if_pos ha]
      rw [List.length_eq_zero.mp ha, levClassic_nil_left]
    · rw [if_neg ha]
      by_cases hb : b.length = 0
      · rw [if_pos hb]
        rw [List.length_eq_zero.mp hb, levClassic_nil_right]
      · rw [if_neg hb]
        by_cases hlt : a.length > b.length
        · rw [if_pos hlt, levLoop_eval b a, levClassic_symm]
        · rw [if_neg hlt, levLoop_eval a b]

/-- C9: the source `levenshtein` satisfies `distance(a, a) = 0`, symmetry,
`distance("", b) = |b|`, and computes the classic unit-cost
insertion/deletion/substitution edit distance (case-sensitively, characters
compared for equality). -/
theorem c9_levenshtein (a b : String) :
    levenshtein a a = 0 ∧
    levenshtein a b = levenshtein b a ∧
    levenshtein "" b = b.length ∧
    levenshtein a b = levClassic a.data b.data := by
  refine ⟨?_, ?_, ?_, levenshteinL_eq_levClassic a.data b.data⟩
  · simp [levenshtein, levenshteinL]
  · rw [levenshtein, levenshtein, levenshteinL_eq_levClassic,
      levenshteinL_eq_levClassic, levClassic_symm]
  · rw [levenshtein, levenshteinL_eq_levClassic]
    show levClassic [] b.data = b.length
    rw [levClassic_nil_left]
    rfl

/-! ### Suggestion engine: first-minimum characterization -/

theorem suggestLoop_char (want : String) (hw : 0 < want.length) :
    ∀ (l done : List (List String)) (acc : Option (List String × ℚ)),
      (acc = none ↔ done = []) →
      (∀ b bd, acc = some (b, bd) → bd = normDist want (joinSpace b) ∧
        ∃ l₁ l₂, done = l₁ ++ b :: l₂ ∧
          (∀ c ∈ l₁, normDist want (joinSpace b) < normDist want (joinSpace c)) ∧
          (∀ c ∈ l₂, normDist want (joinSpace b) ≤ normDist want (joinSpace c))) →
      (suggestLoop want l acc = none ↔ done ++ l = []) ∧
      (∀ b bd, suggestLoop want l acc = some (b, bd) →
        bd = normDist want (joinSpace b) ∧
        ∃ l₁ l₂, done ++ l = l₁ ++ b :: l₂ ∧
          (∀ c ∈ l₁, normDist want (joinSpace b) < normDist want (joinSpace c)) ∧
          (∀ c ∈ l₂, normDist want (joinSpace b) ≤ normDist want (joinSpace c))) := by
  intro l
  induction l with
  | nil =>
    intro done acc h1 h2
    simp only [suggestLoop, List.append_nil]
    exact ⟨h1, h2⟩
  | cons cand rest ih =>
    intro done acc h1 h2
    have hmax : ¬(max want.length (joinSpace cand).length = 0) := by omega
    have happ : done ++ cand :: rest = (done ++ [cand]) ++ rest := by
      simp
    rw [happ]
    cases acc with
    | none =>
      have hdone : done = [] := h1.mp rfl
      subst hdone
      simp only [suggestLoop, if_neg hmax]
      apply ih [cand] (some (cand, normDist want (joinSpace cand)))
      · simp
      · intro b bd hb
        simp only [Option.some_inj, Prod.mk.injEq] at hb
        obtain ⟨rfl, rfl⟩ := hb
        exact ⟨rfl, [], [], by simp, by simp, by simp⟩
    | some bpair =>
      obtain ⟨b, bd⟩ := bpair
      obtain ⟨hbd, l₁, l₂, hsplit, hlt, hle⟩ := h2 b bd rfl
      subst hbd
      simp only [suggestLoop, if_neg hmax]
      by_cases hcmp : normDist want (joinSpace cand) < normDist want (joinSpace b)
      · rw [if_pos hcmp]
        apply ih (done ++ [cand]) (some (cand, normDist want (joinSpace cand)))
        · constructor
          · intro hc; cases hc
          · intro hc
            exact absurd hc (by simp)
        · intro b' bd' hb
          simp only [Option.some_inj, Prod.mk.injEq] at hb
          obtain ⟨rfl, rfl⟩ := hb
          refine ⟨rfl, done, [], by simp, ?_, by simp⟩
          intro c hc
          rw [hsplit] at hc
          rcases List.mem_append.mp hc with hc1 | hc2
          · exact lt_trans hcmp (hlt c hc1)
          · rcases List.mem_cons.mp hc2 with rfl | hc3
            · exact hcmp
            · exact lt_of_lt_of_le hcmp (hle c hc3)
      · rw [if_neg hcmp]
        apply ih (done ++ [cand]) (some (b, normDist want (joinSpace b)))
        · constructor
          · intro hc; cases hc
          · intro hc
            exact absurd hc (by simp)
        · intro b' bd' hb
          simp only [Option.some_inj, Prod.mk.injEq] at hb
          obtain ⟨rfl, rfl⟩ := hb
          refine ⟨rfl, l₁, l₂ ++ [cand], by rw [hsplit]; simp, hlt, ?_⟩
          intro c hc
          rcases List.mem_append.mp hc with hc1 | hc2
          · exact hle c hc1
          · rcases List.mem_singleton.mp hc2 with rfl
            exact le_of_not_lt hcmp

/-- C6: `suggestFullPath` enumerates every registered full path (hidden
included), computes for each the edit distance between the space-joined typed
input and the space-joined candidate divided by the longer of the two lengths,
and returns the candidate with minimum normalized distance when that minimum
is strictly below 3/10 (the first candidate in enumeration order on ties),
and `none` otherwise — in particular `none` when no command is registered.
(Stated for a non-empty joined input; on two empty strings the JS division
yields `NaN`, which never updates the running minimum.) -/
theorem c6_suggest (root : CommandNode) (parts : List String)
    (hw : 0 < (joinSpace parts).length) :
    (suggestFullPath root parts = none ↔
      allPaths root = [] ∨
      ∀ c ∈ allPaths root,
        (3 : ℚ) / 10 ≤ normDist (joinSpace parts) (joinSpace c)) ∧
    (∀ s, suggestFullPath root parts = some s →
      ∃ b l₁ l₂, allPaths root = l₁ ++ b :: l₂ ∧ s = joinSpace b ∧
        normDist (joinSpace parts) (joinSpace b) < 3 / 10 ∧
        (∀ c ∈ l₁, normDist (joinSpace parts) (joinSpace b) <
          normDist (joinSpace parts) (joinSpace c)) ∧
        (∀ c ∈ l₂, normDist (joinSpace parts) (joinSpace b) ≤
          normDist (joinSpace parts) (joinSpace c))) := by
  by_cases hall : allPaths root = []
  · constructor
    · simp [suggestFullPath, hall]
    · intro s hs
      rw [suggestFullPath] at hs
      simp [hall] at hs
  · have hchar := suggestLoop_char (joinSpace parts) hw (allPaths root) []
      none (by simp) (by intro b bd hb; cases hb)
    simp only [List.nil_append] at hchar
    cases hloop : suggestLoop (joinSpace parts) (allPaths root) none with
    | none =>
      exact absurd (hchar.1.mp hloop) hall
    | some bpair =>
      obtain ⟨b, bd⟩ := bpair
      obtain ⟨hbd, l₁, l₂, hsplit, hlt, hle⟩ := hchar.2 b bd hloop
      subst hbd
      have hres : suggestFullPath root parts =
          if normDist (joinSpace parts) (joinSpace b) < 3 / 10 then
            some (joinSpace b)
          else none := by
        rw [suggestFullPath]
        simp only [hall, if_neg hall, hloop]
        simp
      constructor
      · rw [hres]
        by_cases hth : normDist (joinSpace parts) (joinSpace b) < 3 / 10
        · rw [if_pos hth]
          constructor
          · intro hc
            exact absurd hc (by simp)
          · intro hor
            exfalso
            rcases hor with h0 | hforall
            · exact hall h0
            · have hb_mem : b ∈ allPaths root := by rw [hsplit]; simp
              exact absurd (hforall b hb_mem) (not_le.mpr hth)
        · rw [if_neg hth]
          simp only [true_iff]
          right
          intro c hc
          rw [hsplit] at hc
          have hble : normDist (joinSpace parts) (joinSpace b) ≤
              normDist (joinSpace parts) (joinSpace c) := by
            rcases List.mem_append.mp hc with hc1 | hc2
            · exact le_of_lt (hlt c hc1)
            · rcases List.mem_cons.mp hc2 with rfl | hc3
              · exact le_refl _
              · exact hle c hc3
          exact le_trans (le_of_not_lt hth) hble
      · intro s hs
        rw [hres] at hs
        by_cases hth : normDist (joinSpace parts) (joinSpace b) < 3 / 10
        · rw [if_pos hth] at hs
          simp only [Option.some_inj] at hs
          exact ⟨b, l₁, l₂, hsplit, hs.symm, hth, hlt, hle⟩
        · rw [if_neg hth] at hs
          cases hs

/-- C6 witness: the suggestion characterization instantiated on a concrete
tree (only `["user","add"]` registered) and the typed input `["usr","add"]`,
with the non-empty-input hypothesis discharged by evaluation. -/
theorem c6_suggest_witness :
    (suggestFullPath c6tree ["usr", "add"] = none ↔
      allPaths c6tree = [] ∨
      ∀ c ∈ allPaths c6tree,
        (3 : ℚ) / 10 ≤ normDist (joinSpace ["usr", "add"]) (joinSpace c)) ∧
    (∀ s, suggestFullPath c6tree ["usr", "add"] = some s →
      ∃ b l₁ l₂, allPaths c6tree = l₁ ++ b :: l₂ ∧ s = joinSpace b ∧
        normDist (joinSpace ["usr", "add"]) (joinSpace b) < 3 / 10 ∧
        (∀ c ∈ l₁, normDist (joinSpace ["usr", "add"]) (joinSpace b) <
          normDist (joinSpace ["usr", "add"]) (joinSpace c)) ∧
        (∀ c ∈ l₂, normDist (joinSpace ["usr", "add"]) (joinSpace b) ≤
          normDist (joinSpace ["usr", "add"]) (joinSpace c))) :=
  c6_suggest c6tree ["usr", "add"] (by decide)

/-! ### Dispatch pipeline -/

/-- C2: the claim that the span is closed exactly once before after-middleware
regardless of the handler's outcome is broken by the code on the failing
side: when the handler throws, `Deno.exit` is called inside the `catch` block
and terminates the process at once, so the `finally { ctx.endSpan() }` never
runs.  Evaluating the pipeline on a handler that throws shows the span is
started and marked failed but never ended, and the after-middleware hook does
not run; on a succeeding handler the span is ended exactly once before the
after-hook. -/
theorem c2_span_guarantee_bug :
    (run { root := c2tree, after := [0] } c2world
        { positionals := ["user"] }).events =
      [Ev.spanStart "user", Ev.handlerRun 1, Ev.spanFail "boom",
        Ev.out "boom"] ∧
    (run { root := c2tree, after := [0] } c2world
        { positionals := ["user"] }).result = .exited 1 ∧
    Ev.spanEnd ∉ (run { root := c2tree, after := [0] } c2world
        { positionals := ["user"] }).events ∧
    Ev.hook 0 ∉ (run { root := c2tree, after := [0] } c2world
        { positionals := ["user"] }).events ∧
    (run { root := c2tree, after := [0] } {}
        { positionals := ["user"] }).events =
      [Ev.spanStart "user", Ev.handlerRun 1, Ev.spanOk, Ev.spanEnd,
        Ev.hook 0] := by
  exact ⟨rfl, rfl, by decide, by decide, rfl⟩

theorem runHooks_all_ok (w : World) (l : List Nat)
    (h : ∀ i ∈ l, w.mrun i = none) :
    runHooks w l = (l.map Ev.hook, none) := by
  induction l with
  | nil => rfl
  | cons i rest ih =>
    have hi : w.mrun i = none := h i (List.mem_cons_self i rest)
    have hrest : ∀ j ∈ rest, w.mrun j = none :=
      fun j hj => h j (List.mem_cons_of_mem i hj)
    simp [runHooks, hi, ih hrest]

theorem runHooks_fail (w : World) (l₁ : List Nat) (j : Nat) (l₂ : List Nat)
    (e : JsErr) (hok : ∀ i ∈ l₁, w.mrun i = none) (hj : w.mrun j = some e) :
    runHooks w (l₁ ++ j :: l₂) = ((l₁ ++ [j]).map Ev.hook, some e) := by
  induction l₁ with
  | nil => simp [runHooks, hj]
  | cons i rest ih =>
    have hi : w.mrun i = none := hok i (List.mem_cons_self i rest)
    have hrest : ∀ k ∈ rest, w.mrun k = none :=
      fun k hk => hok k (List.mem_cons_of_mem i hk)
    simp [runHooks, hi, ih hrest]

theorem run_hooks_fail (st : CLIState) (w : World) (parsed : Parsed) (e : JsErr)
    (hv : parsed.version = false) (hh : parsed.help = false)
    (hp : parsed.positionals ≠ [])
    (hreg : ¬((traverse st.root parsed.positionals).1.handler = none ∧
              (traverse st.root parsed.positionals).1.lazyImport = none))
    (hfail : (runHooks w st.before).2 = some e) :
    run st w parsed =
      RunOut.mk (runHooks w st.before).1 (.raised e) st.root := by
  have hpe : parsed.positionals.isEmpty = false := by
    cases hl : parsed.positionals with
    | nil => exact absurd hl hp
    | cons a l => rfl
  unfold run
  simp only [hv, hh, hpe, Bool.or_self, Bool.false_eq_true, if_false,
    if_neg hreg, hfail]

theorem run_events_hooks_take (st : CLIState) (w : World) (parsed : Parsed)
    (hv : parsed.version = false) (hh : parsed.help = false)
    (hp : parsed.positionals ≠ [])
    (hreg : ¬((traverse st.root parsed.positionals).1.handler = none ∧
              (traverse st.root parsed.positionals).1.lazyImport = none))
    (hok : (runHooks w st.before).2 = none) :
    ((run st w parsed).events).take (runHooks w st.before).1.length =
      (runHooks w st.before).1 := by
  have hpe : parsed.positionals.isEmpty = false := by
    cases hl : parsed.positionals with
    | nil => exact absurd hl hp
    | cons a l => rfl
  unfold run
  simp only [hv, hh, hpe, Bool.or_self, Bool.false_eq_true, if_false,
    if_neg hreg, hok]
  repeat' split
  all_goals
    simp [List.append_assoc, List.take_left, List.take_length]

/-- C4 (amended): before-hooks run strictly in registration order,
sequentially, before the handler; if a hook throws, the remaining hooks and
the handler do not run, and the thrown error propagates out of `run`
unhandled — it does NOT receive the handler-error mapping (nothing is
printed, the process does not exit with code 1; the pipeline's try/catch only
wraps the handler invocation). -/
theorem c4_before_hooks (st : CLIState) (w : World) (parsed : Parsed)
    (hv : parsed.version = false) (hh : parsed.help = false)
    (hp : parsed.positionals ≠ [])
    (hreg : ¬((traverse st.root parsed.positionals).1.handler = none ∧
              (traverse st.root parsed.positionals).1.lazyImport = none)) :
    ((∀ i ∈ st.before, w.mrun i = none) →
      (run st w parsed).events.take st.before.length = st.before.map Ev.hook) ∧
    (∀ l₁ j l₂ e, st.before = l₁ ++ j :: l₂ →
      (∀ i ∈ l₁, w.mrun i = none) → w.mrun j = some e →
      (run st w parsed).events = (l₁ ++ [j]).map Ev.hook ∧
      (run st w parsed).result = .raised e) := by
  constructor
  · intro hall
    have hmap := runHooks_all_ok w st.before hall
    have ht := run_events_hooks_take st w parsed hv hh hp hreg (by rw [hmap])
    rw [hmap] at ht
    simpa using ht
  · intro l₁ j l₂ e hsplit hok hj
    have hfailed : (runHooks w st.before).2 = some e := by
      rw [hsplit, runHooks_fail w l₁ j l₂ e hok hj]
    have hrun := run_hooks_fail st w parsed e hv hh hp hreg hfailed
    rw [hrun]
    constructor
    · show (runHooks w st.before).1 = (l₁ ++ [j]).map Ev.hook
      rw [hsplit, runHooks_fail w l₁ j l₂ e hok hj]
    · rfl

/-- C4 witness: the amended statement evaluated on a concrete pipeline:
two before-hooks `[0, 1]` where hook 0 throws; only hook 0 runs, and `run`
raises the hook's error unmapped. -/
theorem c4_before_hooks_witness :
    (run { root := c4tree, before := [0, 1] } c4world
        { positionals := ["user"] }).events = (([] : List Nat) ++ [0]).map Ev.hook ∧
    (run { root := c4tree, before := [0, 1] } c4world
        { positionals := ["user"] }).result = .raised (.plain "hookboom") :=
  (c4_before_hooks { root := c4tree, before := [0, 1] } c4world
      { positionals := ["user"] } rfl rfl (by decide) (by decide)).2
    [] 0 [1] (.plain "hookboom") rfl (by simp) rfl

/-- C4 counterexample: the claim's "the thrown error receives the same
unstructured-error mapping as a handler error (message printed, exit code 1)"
is false: a throwing before-hook makes `run` reject with the raw error; no
message is printed and the process is not exited with code 1 by the pipeline
(the remaining hook and the handler indeed do not run). -/
theorem c4_middleware_counterexample :
    (run { root := c4tree, before := [0, 1] } c4world
        { positionals := ["user"] }).events = [Ev.hook 0] ∧
    (run { root := c4tree, before := [0, 1] } c4world
        { positionals := ["user"] }).result = .raised (.plain "hookboom") ∧
    (run { root := c4tree, before := [0, 1] } c4world
        { positionals := ["user"] }).result ≠ .exited 1 ∧
    (∀ s, Ev.out s ∉ (run { root := c4tree, before := [0, 1] } c4world
        { positionals := ["user"] }).events) ∧
    Ev.handlerRun 1 ∉ (run { root := c4tree, before := [0, 1] } c4world
        { positionals := ["user"] }).events ∧
    Ev.hook 1 ∉ (run { root := c4tree, before := [0, 1] } c4world
        { positionals := ["user"] }).events := by
  refine ⟨rfl, rfl, by decide, ?_, by decide, by decide⟩
  intro s hs
  rw [show (run { root := c4tree, before := [0, 1] } c4world
    { positionals := ["user"] }).events = [Ev.hook 0] from rfl] at hs
  simp at hs

/-- C10: when the resolved verbosity is quiet, help rendering produces no
output at all, and the unknown-command branch prints nothing — no error line,
no suggestion, no help — before the invocation completes; this holds for
every tree and every unknown input. -/
theorem c10_quiet_silent (st : CLIState) (w : World) (parsed : Parsed)
    (cliName cmd : String) (root : CommandNode)
    (hv : parsed.version = false) (hh : parsed.help = false)
    (hq : parsed.quiet = true) (hp : parsed.positionals ≠ [])
    (hnode : (traverse st.root parsed.positionals).1.handler = none ∧
             (traverse st.root parsed.positionals).1.lazyImport = none) :
    printHelpEvents cliName root .quiet = [] ∧
    unknownCommandEvents cmd root .quiet = [] ∧
    (run st w parsed).events = [] ∧
    (run st w parsed).result = .completed := by
  have hpe : parsed.positionals.isEmpty = false := by
    cases hl : parsed.positionals with
    | nil => exact absurd hl hp
    | cons a l => rfl
  refine ⟨rfl, by simp [unknownCommandEvents, printHelpEvents], ?_, ?_⟩
  · unfold run
    simp only [hv, hh, hq, hpe, Bool.or_self, Bool.false_eq_true, if_false,
      if_true]
    rw [if_pos hnode]
    simp [unknownCommandEvents, printHelpEvents]
  · unfold run
    simp only [hv, hh, hq, hpe, Bool.or_self, Bool.false_eq_true, if_false,
      if_true]
    rw [if_pos hnode]

/-- C10 witness: a quiet invocation of an unknown command on a concrete tree
emits no events and completes normally. -/
theorem c10_quiet_silent_witness :
    printHelpEvents "cli" c10tree .quiet = [] ∧
    unknownCommandEvents "zzz" c10tree .quiet = [] ∧
    (run { root := c10tree } {} { positionals := ["zzz"], quiet := true }).events
      = [] ∧
    (run { root := c10tree } {} { positionals := ["zzz"], quiet := true }).result
      = .completed :=
  c10_quiet_silent { root := c10tree } {}
    { positionals := ["zzz"], quiet := true } "cli" "zzz" c10tree rfl rfl rfl
    (by decide) ⟨rfl, rfl⟩

theorem unknownCommandEvents_not_quiet (cmd : String) (root : CommandNode)
    (v : Verbosity) (hv : v ≠ .quiet) :
    unknownCommandEvents cmd root v =
      Ev.errOut ("\nUnknown command: " ++ cmd ++ "\n") ::
        ((match suggestFullPath root (cmd.splitOn " ") with
          | some closest => [Ev.errOut ("Did you mean " ++ closest ++ " ?\n")]
          | none => []) ++ (formatHelpLines "" root).map Ev.out) := by
  simp [unknownCommandEvents, printHelpEvents, hv, red, cyan]

/-- C1 (amended): on an argument vector whose traversal ends at a node with
neither handler nor pending import (with the version/help short-circuits not
taken and verbosity not quiet), `run` prints an error naming the first
`consumed+1` positional segments joined by spaces, then the Suggestion
Engine's suggestion if one exists, then the full help; it never throws and
`run` RETURNS NORMALLY — the process is not exited with code 1 by this branch
(the original claim's exit-code-1 contract does not hold: no `Deno.exit` call
exists on this path). -/
theorem c1_unknown_command (st : CLIState) (w : World) (parsed : Parsed)
    (hv : parsed.version = false) (hh : parsed.help = false)
    (hq : parsed.quiet = false) (hp : parsed.positionals ≠ [])
    (hnode : (traverse st.root parsed.positionals).1.handler = none ∧
             (traverse st.root parsed.positionals).1.lazyImport = none) :
    (run st w parsed).result = .completed ∧
    (run st w parsed).events =
      Ev.errOut ("\nUnknown command: " ++
        joinSpace (parsed.positionals.take
          ((traverse st.root parsed.positionals).2 + 1)) ++ "\n") ::
      ((match suggestFullPath st.root
          ((joinSpace (parsed.positionals.take
            ((traverse st.root parsed.positionals).2 + 1))).splitOn " ") with
        | some closest => [Ev.errOut ("Did you mean " ++ closest ++ " ?\n")]
        | none => []) ++
       (formatHelpLines "" st.root).map Ev.out) := by
  have hpe : parsed.positionals.isEmpty = false := by
    cases hl : parsed.positionals with
    | nil => exact absurd hl hp
    | cons a l => rfl
  have hvq : (if parsed.verbose = true then Verbosity.verbose
      else Verbosity.normal) ≠ Verbosity.quiet := by
    cases parsed.verbose <;> simp
  constructor
  · unfold run
    simp only [hv, hh, hq, hpe, Bool.or_self, Bool.false_eq_true, if_false]
    rw [if_pos hnode]
  · unfold run
    simp only [hv, hh, hq, hpe, Bool.or_self, Bool.false_eq_true, if_false]
    rw [if_pos hnode]
    exact unknownCommandEvents_not_quiet _ st.root _ hvq

/-- C1 witness: the amended statement on a concrete tree (`["user","add"]`
registered) and input `["usr","add"]`: traversal consumes nothing, so the
error names `"usr"`, and `run` completes normally. -/
theorem c1_unknown_command_witness :
    (run { root := c1tree } {} { positionals := ["usr", "add"] }).result
      = .completed ∧
    (run { root := c1tree } {} { positionals := ["usr", "add"] }).events =
      Ev.errOut ("\nUnknown command: " ++
        joinSpace ((["usr", "add"] : List String).take
          ((traverse c1tree ["usr", "add"]).2 + 1)) ++ "\n") ::
      ((match suggestFullPath c1tree
          ((joinSpace ((["usr", "add"] : List String).take
            ((traverse c1tree ["usr", "add"]).2 + 1))).splitOn " ") with
        | some closest => [Ev.errOut ("Did you mean " ++ closest ++ " ?\n")]
        | none => []) ++
       (formatHelpLines "" c1tree).map Ev.out) :=
  c1_unknown_command { root := c1tree } {} { positionals := ["usr", "add"] }
    rfl rfl rfl (by decide) ⟨rfl, rfl⟩

/-- C1 counterexample: the claim's "the process terminates with exit code 1"
is false.  Invoking the unregistered `["usr","add"]` against a tree containing
`["user","add"]` reaches the unknown-command branch (the traversed node has
neither handler nor pending import) and `run` returns normally — the result is
`completed`, not `exited 1` (the Deno process would then exit with code 0). -/
theorem c1_exit_code_counterexample :
    (traverse c1tree ["usr", "add"]).1.handler = none ∧
    (traverse c1tree ["usr", "add"]).1.lazyImport = none ∧
    (run { root := c1tree } {} { positionals := ["usr", "add"] }).result
      = .completed ∧
    (run { root := c1tree } {} { positionals := ["usr", "add"] }).result
      ≠ .exited 1 := by
  refine ⟨rfl, rfl, rfl, ?_⟩
  intro hcontra
  rw [show (run { root := c1tree } {} { positionals := ["usr", "add"] }).result
    = .completed from rfl] at hcontra
  exact RunRes.noConfusion hcontra

theorem updateAt_nodeAt (f : CommandNode → CommandNode) (root : CommandNode)
    (q : List String) (m : CommandNode) (hm : nodeAt root q = some m) :
    nodeAt (updateAt f root q) q = some (f m) := by
  induction q generalizing root with
  | nil =>
    have hr : root = m := by simpa [nodeAt] using hm
    subst hr
    rfl
  | cons s qs ih =>
    simp only [nodeAt] at hm
    cases hc : mapGet root.children s with
    | none => rw [hc] at hm; simp at hm
    | some child =>
      rw [hc] at hm
      simp only [updateAt, hc, nodeAt, children_withChildren,
        mapGet_mapSet_self]
      exact ih child hm

theorem traverse_updateAt (f : CommandNode → CommandNode)
    (hf : ∀ n, (f n).children = n.children)
    (root : CommandNode) (segs : List String) :
    traverse (updateAt f root (segs.take (traverse root segs).2)) segs =
      (f (traverse root segs).1, (traverse root segs).2) := by
  induction segs generalizing root with
  | nil => simp [traverse, updateAt]
  | cons s rest ih =>
    cases hm : mapGet root.children s with
    | none =>
      simp [traverse, hm, updateAt, hf]
    | some child =>
      simp only [traverse, hm, List.take_succ_cons, updateAt]
      simp only [traverse, children_withChildren, mapGet_mapSet_self,
        ih child]

theorem runHooks_no_imported (w : World) (l : List Nat) (p : String) :
    Ev.imported p ∉ (runHooks w l).1 := by
  induction l with
  | nil => simp [runHooks]
  | cons i rest ih =>
    cases hi : w.mrun i with
    | some e => simp [runHooks, hi]
    | none =>
      simp only [runHooks, hi]
      intro hmem
      rcases List.mem_cons.mp hmem with hc | hc
      · exact Ev.noConfusion hc
      · exact ih hc

theorem runFromSpan_no_imported (st : CLIState) (w : World) (handler : Nat)
    (spanName : String) (p : String) :
    Ev.imported p ∉ (runFromSpan st w handler spanName).1 := by
  cases hr : w.hrun handler with
  | none =>
    simp only [runFromSpan, hr]
    intro hmem
    rcases List.mem_append.mp hmem with hc | hc
    · simp at hc
    · exact runHooks_no_imported w st.after p hc
  | some e =>
    cases e <;> simp [runFromSpan, hr]

theorem runFromValidation_no_imported (st : CLIState) (w : World)
    (options : CommandOptions) (handler : Nat)
    (rawFlags : List (String × Val)) (spanName : String) (p : String) :
    Ev.imported p ∉ (runFromValidation st w options handler rawFlags spanName).1 := by
  cases hs : options.flagsSchema with
  | none =>
    simp only [runFromValidation, hs]
    exact runFromSpan_no_imported st w handler spanName p
  | some sid =>
    cases hr : w.srun sid rawFlags with
    | parsed =>
      simp only [runFromValidation, hs, hr]
      exact runFromSpan_no_imported st w handler spanName p
    | failed fmt => simp [runFromValidation, hs, hr]
    | threw m => simp [runFromValidation, hs, hr]

theorem run_nonlazy (st : CLIState) (w : World) (parsed : Parsed) (h : Nat)
    (hv : parsed.version = false) (hh : parsed.help = false)
    (hp : parsed.positionals ≠ [])
    (hhand : (traverse st.root parsed.positionals).1.handler = some h)
    (hhooks : (runHooks w st.before).2 = none) :
    ∃ tailEvs res, run st w parsed =
      RunOut.mk ((runHooks w st.before).1 ++ tailEvs) res st.root ∧
      ∀ p, Ev.imported p ∉ tailEvs := by
  have hpe : parsed.positionals.isEmpty = false := by
    cases hl : parsed.positionals with
    | nil => exact absurd hl hp
    | cons a l => rfl
  have hreg : ¬((traverse st.root parsed.positionals).1.handler = none ∧
      (traverse st.root parsed.positionals).1.lazyImport = none) := by
    rw [hhand]
    intro hcon
    exact Option.noConfusion hcon.1
  unfold run
  simp only [hv, hh, hpe, Bool.or_self, Bool.false_eq_true, if_false,
    if_neg hreg, hhooks, hhand]
  exact ⟨_, _, rfl, fun p => runFromValidation_no_imported st w _ h _ _ p⟩

theorem run_lazy_fn (st : CLIState) (w : World) (parsed : Parsed)
    (mp sym : String) (M : List (String × ExportVal)) (h : Nat)
    (hv : parsed.version = false) (hh : parsed.help = false)
    (hp : parsed.positionals ≠ [])
    (hhand : (traverse st.root parsed.positionals).1.handler = none)
    (hlazy : (traverse st.root parsed.positionals).1.lazyImport = some ⟨mp, sym⟩)
    (hmod : mapGet w.modules mp = some M)
    (hhooks : (runHooks w st.before).2 = none)
    (hce : chooseExport M sym = some (.fn h)) :
    ∃ tailEvs res, run st w parsed =
      RunOut.mk ((runHooks w st.before).1 ++ Ev.imported mp :: tailEvs) res
        (updateAt (fun nd => .mk nd.children (some h) none nd.options) st.root
          (parsed.positionals.take (traverse st.root parsed.positionals).2)) ∧
      ∀ p, Ev.imported p ∉ tailEvs := by
  have hpe : parsed.positionals.isEmpty = false := by
    cases hl : parsed.positionals with
    | nil => exact absurd hl hp
    | cons a l => rfl
  have hreg : ¬((traverse st.root parsed.positionals).1.handler = none ∧
      (traverse st.root parsed.positionals).1.lazyImport = none) := by
    rw [hlazy]
    intro hcon
    exact Option.noConfusion hcon.2
  unfold run
  simp only [hv, hh, hpe, Bool.or_self, Bool.false_eq_true, if_false,
    if_neg hreg, hhooks, hhand, hlazy, hmod, hce]
  simp only [List.append_assoc, List.singleton_append]
  exact ⟨_, _, rfl, fun p => runFromValidation_no_imported st w _ h _ _ p⟩

theorem run_lazy_notfn (st : CLIState) (w : World) (parsed : Parsed)
    (mp sym : String) (M : List (String × ExportVal))
    (hv : parsed.version = false) (hh : parsed.help = false)
    (hp : parsed.positionals ≠ [])
    (hhand : (traverse st.root parsed.positionals).1.handler = none)
    (hlazy : (traverse st.root parsed.positionals).1.lazyImport = some ⟨mp, sym⟩)
    (hmod : mapGet w.modules mp = some M)
    (hhooks : (runHooks w st.before).2 = none)
    (hce : chooseExport M sym = none ∨ ∃ t, chooseExport M sym = some (.nonFn t)) :
    run st w parsed =
      RunOut.mk ((runHooks w st.before).1 ++ [Ev.imported mp])
        (.raised (.plain ("Lazy import did not yield a function (" ++ mp ++ ")")))
        st.root := by
  have hpe : parsed.positionals.isEmpty = false := by
    cases hl : parsed.positionals with
    | nil => exact absurd hl hp
    | cons a l => rfl
  have hreg : ¬((traverse st.root parsed.positionals).1.handler = none ∧
      (traverse st.root parsed.positionals).1.lazyImport = none) := by
    rw [hlazy]
    intro hcon
    exact Option.noConfusion hcon.2
  unfold run
  rcases hce with hce | ⟨t, hce⟩ <;>
  · simp only [hv, hh, hpe, Bool.or_self, Bool.false_eq_true, if_false]
    rw [if_neg hreg]
    simp only [hhooks, hhand, hlazy, hmod, hce]

theorem run_second_dispatch (st : CLIState) (w : World) (parsed : Parsed)
    (h : Nat) (T : CommandNode)
    (hv : parsed.version = false) (hh : parsed.help = false)
    (hp : parsed.positionals ≠ [])
    (hhooks : (runHooks w st.before).2 = none)
    (hhand2 : (traverse T parsed.positionals).1.handler = some h) :
    (run { st with root := T } w parsed).tree = T ∧
    ∀ p, Ev.imported p ∉ (run { st with root := T } w parsed).events := by
  obtain ⟨tail2, res2, hrun2, htail2⟩ :=
    run_nonlazy { st with root := T } w parsed h hv hh hp hhand2 hhooks
  rw [hrun2]
  refine ⟨rfl, ?_⟩
  intro p hmem
  rcases List.mem_append.mp hmem with hc | hc
  · exact runHooks_no_imported w _ p hc
  · exact htail2 p hc

/-- C3 (amended): dispatch to a lazily registered node performs the deferred
load and takes the export named by the registered symbol when the module has
it (and it is truthy); otherwise it FALLS BACK to the `default` export (even
when a symbol was specified — the original "default only when no symbol was
specified" is refuted by the counterexample).  If the chosen value is
callable, it is cached on the node (handler set, pending import cleared), and
a second dispatch to the same node does not re-invoke the import and leaves
the cached tree unchanged; if the chosen value is not callable (or absent),
`run` fails with the load error. -/
theorem c3_lazy_resolution (st : CLIState) (w : World) (parsed : Parsed)
    (mp sym : String) (M : List (String × ExportVal))
    (hv : parsed.version = false) (hh : parsed.help = false)
    (hp : parsed.positionals ≠ [])
    (hhand : (traverse st.root parsed.positionals).1.handler = none)
    (hlazy : (traverse st.root parsed.positionals).1.lazyImport = some ⟨mp, sym⟩)
    (hmod : mapGet w.modules mp = some M)
    (hhooks : (runHooks w st.before).2 = none) :
    (∀ h, chooseExport M sym = some (.fn h) →
      Ev.imported mp ∈ (run st w parsed).events ∧
      nodeAt (run st w parsed).tree
        (parsed.positionals.take (traverse st.root parsed.positionals).2) =
        some (.mk (traverse st.root parsed.positionals).1.children (some h) none
          (traverse st.root parsed.positionals).1.options) ∧
      (run { st with root := (run st w parsed).tree } w parsed).tree =
        (run st w parsed).tree ∧
      (∀ p, Ev.imported p ∉
        (run { st with root := (run st w parsed).tree } w parsed).events)) ∧
    ((∀ h, ¬chooseExport M sym = some (.fn h)) →
      (run st w parsed).result =
        .raised (.plain ("Lazy import did not yield a function (" ++ mp ++ ")")) ∧
      (run st w parsed).tree = st.root) := by
  constructor
  · intro h hce
    obtain ⟨tail, res, hrun, htail⟩ :=
      run_lazy_fn st w parsed mp sym M h hv hh hp hhand hlazy hmod hhooks hce
    have hnd := nodeAt_take_traverse st.root parsed.positionals
    have hhand2 : (traverse (run st w parsed).tree parsed.positionals).1.handler
        = some h := by
      rw [hrun]
      show (traverse (updateAt
        (fun nd => CommandNode.mk nd.children (some h) none nd.options) st.root
        (parsed.positionals.take (traverse st.root parsed.positionals).2))
        parsed.positionals).1.handler = some h
      rw [traverse_updateAt
        (fun nd => CommandNode.mk nd.children (some h) none nd.options)
        (fun n => rfl) st.root parsed.positionals]
      rfl
    have hsecond := run_second_dispatch st w parsed h ((run st w parsed).tree)
      hv hh hp hhooks hhand2
    refine ⟨?_, ?_, hsecond.1, hsecond.2⟩
    · rw [hrun]
      simp
    · rw [hrun]
      exact updateAt_nodeAt _ st.root _ _ hnd
  · intro hnot
    have hce : chooseExport M sym = none ∨
        ∃ t, chooseExport M sym = some (.nonFn t) := by
      cases hc : chooseExport M sym with
      | none => exact Or.inl rfl
      | some ev =>
        cases ev with
        | fn h => exact absurd hc (hnot h)
        | nonFn t => exact Or.inr ⟨t, rfl⟩
    have hrun := run_lazy_notfn st w parsed mp sym M hv hh hp hhand hlazy
      hmod hhooks hce
    rw [hrun]
    exact ⟨rfl, rfl⟩

/-- C3 witness: the amended statement on a concrete lazy registration
(`["user"]` from `"mod.ts"` under symbol `"foo"`, module exporting only a
callable `default`): the import happens, the default export (handler 7) is
cached with the pending import cleared, and a second run does not re-import. -/
theorem c3_lazy_resolution_witness :
    Ev.imported "mod.ts" ∈
      (run { root := c3tree } c3world { positionals := ["user"] }).events ∧
    nodeAt (run { root := c3tree } c3world { positionals := ["user"] }).tree
      ((["user"] : List String).take (traverse c3tree ["user"]).2) =
      some (.mk (traverse c3tree ["user"]).1.children (some 7) none
        (traverse c3tree ["user"]).1.options) ∧
    (run { ({ root := c3tree } : CLIState) with root :=
        (run { root := c3tree } c3world { positionals := ["user"] }).tree }
      c3world { positionals := ["user"] }).tree =
      (run { root := c3tree } c3world { positionals := ["user"] }).tree ∧
    (∀ p, Ev.imported p ∉
      (run { ({ root := c3tree } : CLIState) with root :=
          (run { root := c3tree } c3world { positionals := ["user"] }).tree }
        c3world { positionals := ["user"] }).events) :=
  (c3_lazy_resolution { root := c3tree } c3world { positionals := ["user"] }
      "mod.ts" "foo" [("default", ExportVal.fn 7)] rfl rfl (by decide)
      rfl rfl rfl rfl).1 7 rfl

/-- C3 counterexample: the claim's "using the `default` export only when no
symbol was specified" is false.  The node is registered with the explicit
symbol `"foo"`; the module has no `"foo"` export but a callable `default`
(handler 7); resolution nevertheless uses the default export, runs handler 7
successfully and caches it — instead of taking the named export or failing. -/
theorem c3_default_fallback_counterexample :
    (nodeAt c3tree ["user"]).bind CommandNode.lazyImport =
      some ⟨"mod.ts", "foo"⟩ ∧
    mapGet [("default", ExportVal.fn 7)] "foo" = none ∧
    (run { root := c3tree } c3world { positionals := ["user"] }).events =
      [Ev.imported "mod.ts", Ev.spanStart "user", Ev.handlerRun 7, Ev.spanOk,
        Ev.spanEnd] ∧
    (run { root := c3tree } c3world { positionals := ["user"] }).result =
      .completed ∧
    nodeAt (run { root := c3tree } c3world { positionals := ["user"] }).tree
      ["user"] = some (.mk [] (some 7) none {}) :=
  ⟨rfl, rfl, rfl, rfl, rfl⟩

end GenericCli
